import Mathlib

/-!
Verification development for the autosubmit_models reconciliation engine.

The definitions below are a shallow embedding of the Python source:

* `clean_model_name`   — `AutosubmitSyncWorker._clean_model_name`
* `extract`            — `AutosubmitSyncWorker._extract_autosubmit_experiments`
* `process_experiments`— `AutosubmitSyncWorker._process_experiments`
* `stepGroup` / `reconcile` / `applyWriteSet` / `update_timescaledb`
                       — `AutosubmitSyncWorker._update_timescaledb`
* `executeTask`        — `AutosubmitSyncWorker.execute_task`
* `loopTrace`          — `BaseWorker.start` / `BaseWorker.stop`
* worker state ops     — `BaseWorker.set_timestamp`, `AutosubmitSyncWorker.__init__`

Timestamps (`datetime`) are modelled as a day number plus a time-of-day
number; the analytics store (TimescaleDB tables `experiments` and
`metric_models_popularity`) is modelled as two append-style lists that are
mutated only through insert-or-ignore folds, mirroring the
`on_conflict_do_nothing` bulk inserts.
-/

namespace Autosubmit

/-- The single-quote character, written via its code point. -/
def quoteChar : Char := Char.ofNat 39

/-- `model_name.rstrip("/")` — drop every trailing slash. -/
def rstripSlash (s : List Char) : List Char :=
  (s.reverse.dropWhile (fun c => c = '/')).reverse

/-- `AutosubmitSyncWorker._clean_model_name`: empty (falsy) input is returned
unchanged; otherwise trailing slashes are stripped, and if the result both
starts and ends with a single quote exactly one layer of quotes is removed
(`model_name[1:-1]`). -/
def clean_model_name (s : List Char) : List Char :=
  if s = [] then s
  else if (rstripSlash s).head? = some quoteChar ∧
          (rstripSlash s).getLast? = some quoteChar then
    (rstripSlash s).tail.dropLast
  else rstripSlash s

/-- A `datetime` value: day number and time within the day. -/
structure DT where
  day : Nat
  tod : Nat
deriving DecidableEq, Repr

/-- `credated.replace(hour=0, minute=0, second=0, microsecond=0)`. -/
def truncDT (d : DT) : DT := ⟨d.day, 0⟩

/-- One row of the Autosubmit SQLite source (`details` joined with
`experiment` for the name); only the columns the sync path reads are kept. -/
structure SourceRecord where
  exp_id : String
  name : String
  model : List Char
  credated : DT
deriving DecidableEq, Repr

/-- One element of the list built by `_extract_autosubmit_experiments`
(the `exp_data` dict, restricted to the fields the later phases read). -/
structure ExpData where
  exp_id : String
  name : String
  model : List Char
  credated : DT
deriving DecidableEq, Repr

/-- `self.invalid_model_values` from `AutosubmitSyncWorker.__init__`. -/
def invalid_model_values : List (List Char) :=
  ["NA".toList, "Blabla".toList, "blabla".toList]

/-- Build the `exp_data` dict for one source row: the raw model name is
cleaned, every other field is copied. -/
def mkExpData (r : SourceRecord) : ExpData :=
  ⟨r.exp_id, r.name, clean_model_name r.model, r.credated⟩

/-- `_extract_autosubmit_experiments`: keep the rows whose raw `model` is not
in the denylist (`not_(ExperimentDetailDB.model.in_(...))`, a case-sensitive
exact match on the raw value), then clean the model name of each kept row. -/
def extract (rows : List SourceRecord) : List ExpData :=
  (rows.filter (fun r => r.model ∉ invalid_model_values)).map mkExpData

/-- One entry of a group's `experiments` list in `models_data`. -/
structure Member where
  id : String
  name : String
  created_time : DT
deriving DecidableEq, Repr

/-- The value stored under one `(creation_date, model_name)` key of
`models_data`. -/
structure GroupInfo where
  count : Nat
  experiments : List Member
deriving DecidableEq, Repr

/-- A `(creation_date, model_name)` key paired with its group data. -/
abbrev Group := (DT × List Char) × GroupInfo

/-- Python `key in models_data` on the insertion-ordered dict. -/
def findGroup : List Group → (DT × List Char) → Option GroupInfo
  | [], _ => none
  | (k, g) :: t, key => if k = key then some g else findGroup t key

/-- Append one experiment to an existing group and advance its count
(`models_data[key]["experiments"].append(...)`; `["count"] += 1`). -/
def updateGroup (key : DT × List Char) (m : Member) : List Group → List Group
  | [] => []
  | (k, g) :: t =>
      if k = key then (k, ⟨g.count + 1, g.experiments ++ [m]⟩) :: t
      else (k, g) :: updateGroup key m t

/-- One iteration of the `_process_experiments` loop: a fresh
`(date-truncated credated, model)` key is first initialised with count 0 and
an empty list, then the record is appended and the count advanced. -/
def procStep (acc : List Group) (e : ExpData) : List Group :=
  updateGroup (truncDT e.credated, e.model) ⟨e.exp_id, e.name, e.credated⟩
    (if (findGroup acc (truncDT e.credated, e.model)).isSome then acc
     else acc ++ [((truncDT e.credated, e.model), ⟨0, []⟩)])

/-- `_process_experiments`: bucket the extracted rows by
`(date-truncated credated, model)`, preserving dict insertion order. -/
def process_experiments (exps : List ExpData) : List Group :=
  exps.foldl procStep []

/-- A persisted `experiments` row (`ExperimentTimeDB`): primary key `id`. -/
structure MemberRow where
  id : String
  name : String
  model : List Char
  created_time : DT
deriving DecidableEq, Repr

/-- A persisted `metric_models_popularity` row (`ModelPopularityTimeDB`):
primary key `(time, model)`. -/
structure Bucket where
  time : DT
  model : List Char
  count : Nat
  total_count : Nat
  extracted_time : Nat
deriving DecidableEq, Repr

/-- The primary key of a popularity row. -/
def bkey (b : Bucket) : DT × List Char := (b.time, b.model)

/-- The analytics store: the two TimescaleDB tables, in insertion order. -/
structure Store where
  experiments : List MemberRow
  buckets : List Bucket
deriving DecidableEq, Repr

/-- The empty analytics store. -/
def Store.empty : Store := ⟨[], []⟩

/-- `select(ExperimentTimeDB.id)` — the set of already persisted ids. -/
def memberIds (s : Store) : List String := s.experiments.map (·.id)

/-- Keys of a list of popularity rows. -/
def bucketKeysL (l : List Bucket) : List (DT × List Char) := l.map bkey

/-- The popularity rows of one model, in insertion order. -/
def catL (l : List Bucket) (m : List Char) : List Bucket :=
  l.filter (fun b => b.model = m)

/-- `func.sum(ModelPopularityTimeDB.count)` over one model's rows. -/
def sumCountsL (l : List Bucket) (m : List Char) : Nat :=
  ((catL l m).map (·.count)).sum

/-- The contract of
`order_by(ModelPopularityTimeDB.extracted_time.desc()).first()`: the query
returns no row exactly when the row set is empty, and otherwise some row of
maximal `extracted_time`.  Postgres does not specify which row is returned
when several share the maximal `extracted_time`, so the whole reconciliation
is developed for an arbitrary resolution `pick` satisfying this contract;
each such resolution is one legal execution of the program. -/
def IsLatestQuery (pick : List Bucket → Option Bucket) : Prop :=
  (∀ l : List Bucket, pick l = none ↔ l = []) ∧
  (∀ (l : List Bucket) (b : Bucket), pick l = some b →
    b ∈ l ∧ ∀ a ∈ l, a.extracted_time ≤ b.extracted_time)

/-- One comparison step of the tie-to-last resolution of the latest-row
query. -/
def pickStep (acc : Option Bucket) (b : Bucket) : Option Bucket :=
  match acc with
  | none => some b
  | some a => if a.extracted_time ≤ b.extracted_time then some b else some a

/-- The resolution of the latest-row query that gives ties on
`extracted_time` to the most recently inserted row.  It is one legal
resolution (`IsLatestQuery` holds for it) and is the one used to specialize
the executable deterministic model. -/
def pickLatest (l : List Bucket) : Option Bucket :=
  l.foldl pickStep none

/-- One comparison step of the tie-to-first resolution of the latest-row
query. -/
def pickFirstStep (acc : Option Bucket) (b : Bucket) : Option Bucket :=
  match acc with
  | none => some b
  | some a => if a.extracted_time < b.extracted_time then some b else some a

/-- The resolution of the latest-row query that gives ties on
`extracted_time` to the earliest inserted row — equally legal under the
source query, and adversarial for the conservation and monotonicity
properties. -/
def pickFirstMax (l : List Bucket) : Option Bucket :=
  l.foldl pickFirstStep none

/-- The prior cumulative the cycle seeds for a model under the latest-row
resolution `pick`: `total_count` of the returned row, falling back to the
historical sum query (which returns 0 when the model has no rows at all). -/
def seedLP (pick : List Bucket → Option Bucket) (l : List Bucket)
    (m : List Char) : Nat :=
  match pick (catL l m) with
  | some b => b.total_count
  | none => sumCountsL l m

/-- The seed under the tie-to-last resolution. -/
def seedL (l : List Bucket) (m : List Char) : Nat := seedLP pickLatest l m

/-- `catL` on a store. -/
def catBuckets (s : Store) (m : List Char) : List Bucket := catL s.buckets m

/-- `sumCountsL` on a store. -/
def sumCounts (s : Store) (m : List Char) : Nat := sumCountsL s.buckets m

/-- `models_historical_count` lookup (`model_name in models_historical_count`). -/
def hFind : List (List Char × Nat) → List Char → Option Nat
  | [], _ => none
  | (k, v) :: t, m => if k = m then some v else hFind t m

/-- `models_historical_count[model_name] = total` (insert or overwrite). -/
def hUpdate : List (List Char × Nat) → List Char → Nat → List (List Char × Nat)
  | [], m, v => [(m, v)]
  | (k, x) :: t, m, v => if k = m then (k, v) :: t else (k, x) :: hUpdate t m v

/-- The per-cycle mutable state of the `_update_timescaledb` loop. -/
structure LoopState where
  existingIds : List String
  hist : List (List Char × Nat)
  entries : List Bucket
  inserted : List MemberRow
deriving Repr

/-- The value `models_historical_count` would hold for `m` under latest-row
resolution `pick`: the stored value if `m` was already touched this cycle,
otherwise the database seed (the seed queries run against the pre-cycle
popularity rows: the new popularity entries are inserted only after the
loop, at lines 322–341). -/
def histSeedP (pick : List Bucket → Option Bucket) (s : Store)
    (ls : LoopState) (m : List Char) : Nat :=
  match hFind ls.hist m with
  | some v => v
  | none => seedLP pick s.buckets m

/-- `histSeedP` under the tie-to-last resolution. -/
def histSeed (s : Store) (ls : LoopState) (m : List Char) : Nat :=
  histSeedP pickLatest s ls m

/-- `new_experiments`: the group's members whose ids are not yet in the
evolving persisted-id set. -/
def newMembers (ls : LoopState) (g : Group) : List Member :=
  g.2.experiments.filter (fun e => e.id ∉ ls.existingIds)

/-- The `values` dicts staged for the bulk experiment insert of one group:
each new member becomes a row carrying the group's model name. -/
def newRows (ls : LoopState) (g : Group) : List MemberRow :=
  (newMembers ls g).map (fun e => MemberRow.mk e.id e.name g.1.2 e.created_time)

/-- One iteration of the `for (date_key, model_name), model_info in
models_data.items()` loop of `_update_timescaledb`, under latest-row
resolution `pick`:
filter the group's experiments against the evolving id set; skip the group
entirely when nothing is new (`continue` at line 247); otherwise seed/advance
the in-memory cumulative (lines 249–275), record a popularity entry unless the
`(date, model)` key was already persisted before the cycle started (line 278),
and stage the new experiment rows, adding their ids to the evolving id set
(lines 289–320). -/
def stepGroupP (pick : List Bucket → Option Bucket) (s : Store) (now : Nat)
    (ls : LoopState) (g : Group) : LoopState :=
  if newMembers ls g = [] then ls
  else
    { existingIds := ls.existingIds ++ (newRows ls g).map (·.id)
      hist := hUpdate ls.hist g.1.2
        (histSeedP pick s ls g.1.2 + (newMembers ls g).length)
      entries :=
        if g.1 ∈ bucketKeysL s.buckets then ls.entries
        else ls.entries ++ [⟨g.1.1, g.1.2, (newMembers ls g).length,
          histSeedP pick s ls g.1.2 + (newMembers ls g).length, now⟩]
      inserted := ls.inserted ++ newRows ls g }

/-- The loop iteration under the tie-to-last resolution. -/
def stepGroup (s : Store) (now : Nat) (ls : LoopState) (g : Group) : LoopState :=
  stepGroupP pickLatest s now ls g

/-- The loop state at the top of `_update_timescaledb`: the persisted id set
has been snapshotted, nothing has been staged yet. -/
def initLoop (s : Store) : LoopState := ⟨memberIds s, [], [], []⟩

/-- Run the whole `_update_timescaledb` loop under latest-row resolution
`pick` and return the cycle's write set: the staged experiment rows and the
staged popularity entries. -/
def reconcileP (pick : List Bucket → Option Bucket) (s : Store)
    (groups : List Group) (now : Nat) : List MemberRow × List Bucket :=
  let f := groups.foldl (stepGroupP pick s now) (initLoop s)
  (f.inserted, f.entries)

/-- The write set under the tie-to-last resolution. -/
def reconcile (s : Store) (groups : List Group) (now : Nat) :
    List MemberRow × List Bucket :=
  reconcileP pickLatest s groups now

/-- `insert(...).on_conflict_do_nothing(index_elements=["id"])` for one
experiment row. -/
def insMember (acc : List MemberRow) (r : MemberRow) : List MemberRow :=
  if r.id ∈ acc.map (·.id) then acc else acc ++ [r]

/-- `insert(...).on_conflict_do_nothing(index_elements=["time", "model"])`
for one popularity row. -/
def insBucket (acc : List Bucket) (b : Bucket) : List Bucket :=
  if bkey b ∈ bucketKeysL acc then acc else acc ++ [b]

/-- Commit the cycle's write set: both tables receive their staged rows via
insert-or-ignore, all made visible together by the single `session.commit()`.
The source issues the inserts in batches of 100 rows; since every row is
guarded by the same conflict-ignore key check, the batching is flattened to
row-by-row folds with identical effect on the store. -/
def applyWriteSet (s : Store) (ws : List MemberRow × List Bucket) : Store :=
  ⟨ws.1.foldl insMember s.experiments, ws.2.foldl insBucket s.buckets⟩

/-- The effect of one successful `_update_timescaledb` call on the store,
under latest-row resolution `pick`. -/
def syncCycleP (pick : List Bucket → Option Bucket) (s : Store)
    (groups : List Group) (now : Nat) : Store :=
  applyWriteSet s (reconcileP pick s groups now)

/-- The committed cycle under the tie-to-last resolution. -/
def syncCycle (s : Store) (groups : List Group) (now : Nat) : Store :=
  syncCycleP pickLatest s groups now

/-- `_update_timescaledb` with its commit outcome made explicit.  `commitOk`
models whether `session.flush()` / `session.commit()` succeed.  On success the
materialized-view refresh is attempted once (its failure is caught at lines
351–358 and only logged, so it cannot alter the committed store); the second
component counts that refresh attempt.  On failure `session.rollback()`
discards every row staged in the session and the exception is re-raised, so
the store is unchanged and the error leaves the function. -/
def update_timescaledb (s : Store) (groups : List Group) (now : Nat)
    (commitOk refreshInnerOk : Bool) : Except Unit Store × Nat :=
  if commitOk then (Except.ok (syncCycle s groups now), 1)
  else (Except.error (), 0)

/-- The observable outcome of one `execute_task` call. -/
structure CycleRun where
  store : Store
  persisted : Bool
  raised : Bool
  refreshes : Nat
deriving DecidableEq, Repr

/-- `AutosubmitSyncWorker.execute_task`: extract, return early when nothing
was extracted, group, then call `_update_timescaledb` inside a
`try/except` that logs the error and deliberately does not re-raise; after
that `refresh_materialized_views()` is called unconditionally at line 99, and
its failure propagates out through the outer handler (which re-raises). -/
def executeTask (s : Store) (rows : List SourceRecord) (now : Nat)
    (commitOk refreshInnerOk refreshOuterOk : Bool) : CycleRun :=
  let exps := extract rows
  if exps.isEmpty then
    { store := s, persisted := false, raised := false, refreshes := 0 }
  else
    let groups := process_experiments exps
    let r := update_timescaledb s groups now commitOk refreshInnerOk
    match r.1 with
    | Except.ok s2 =>
        { store := s2, persisted := true, raised := !refreshOuterOk
          refreshes := r.2 + 1 }
    | Except.error _ =>
        { store := s, persisted := false, raised := !refreshOuterOk
          refreshes := r.2 + 1 }

/-- One scheduled source snapshot together with the cycle's extraction
timestamp. -/
abbrev Cycle := List SourceRecord × Nat

/-- A sequence of successful cycles under latest-row resolution `pick`. -/
def runCyclesP (pick : List Bucket → Option Bucket) (s : Store) :
    List Cycle → Store
  | [] => s
  | c :: rest =>
      runCyclesP pick (syncCycleP pick s (process_experiments (extract c.1)) c.2) rest

/-- A sequence of successful cycles under the tie-to-last resolution. -/
def runCycles (s : Store) : List Cycle → Store
  | [] => s
  | c :: rest => runCycles (syncCycle s (process_experiments (extract c.1)) c.2) rest

/-- The per-model condition under which one cycle's reconciliation loses no
increment: every group that still carries a member id unknown to the store
targets a `(bucketDate, category)` key that is not yet persisted.  (When a
group's key is already persisted but the group has new members, lines 274–275
advance the in-memory cumulative while line 278 suppresses the row write.) -/
def FreshGroups (s : Store) (groups : List Group) : Prop :=
  ∀ g ∈ groups,
    (∃ e ∈ g.2.experiments, e.id ∉ memberIds s) → g.1 ∉ bucketKeysL s.buckets

instance (s : Store) (groups : List Group) : Decidable (FreshGroups s groups) := by
  unfold FreshGroups; infer_instance

/-- `FreshGroups` at every intermediate store of a run under resolution
`pick`. -/
def FreshRunP (pick : List Bucket → Option Bucket) : Store → List Cycle → Prop
  | _, [] => True
  | s, c :: rest =>
      FreshGroups s (process_experiments (extract c.1)) ∧
      FreshRunP pick (syncCycleP pick s (process_experiments (extract c.1)) c.2) rest

/-- Each cycle of the run writes at most one popularity row per model: the
staged entries of every cycle carry pairwise distinct model names.  (When a
cycle stages two rows for one model they share the cycle timestamp, and a
later seed query over the tied rows is ambiguous.) -/
def OneRunP (pick : List Bucket → Option Bucket) : Store → List Cycle → Prop
  | _, [] => True
  | s, c :: rest =>
      (((reconcileP pick s (process_experiments (extract c.1)) c.2).2.map
        (·.model)).Nodup) ∧
      OneRunP pick (syncCycleP pick s (process_experiments (extract c.1)) c.2) rest

/-- The in-memory state of an `AutosubmitSyncWorker` instance together with
the analytics store it writes to. -/
structure WorkerSt where
  current_time : Nat
  shared_timestamp : Option Nat
  store : Store
deriving DecidableEq, Repr

/-- `AutosubmitSyncWorker.__init__`: the extraction timestamp is fixed once at
construction (`self.current_time = datetime.now()` or the argument) and the
shared timestamp starts unset (`BaseWorker.__init__`). -/
def mkWorker (now : Nat) : WorkerSt := ⟨now, none, Store.empty⟩

/-- `BaseWorker.set_timestamp`: records the manager's shared timestamp. -/
def set_timestamp (w : WorkerSt) (t : Nat) : WorkerSt :=
  { w with shared_timestamp := some t }

/-- One successful `execute_task` invocation of the worker: the write path
passes `self.current_time` (line 77) — not `self.shared_timestamp` — to
`_update_timescaledb`. -/
def runWorkerCycle (w : WorkerSt) (rows : List SourceRecord) : WorkerSt :=
  { w with store := syncCycle w.store (process_experiments (extract rows)) w.current_time }

/-- A sequence of worker cycles. -/
def runWorkerCycles (w : WorkerSt) (rowss : List (List SourceRecord)) : WorkerSt :=
  rowss.foldl runWorkerCycle w

/-- Result of one `await self.execute_task()` inside `BaseWorker.start`. -/
inductive Outcome where
  | ok
  | failed
deriving DecidableEq, Repr

/-- Observable events of the `BaseWorker.start` loop: a cycle starting, its
logged completion or logged caught exception, the interval sleep, and the
loop exiting because `is_running` was found false. -/
inductive Ev where
  | cycleStart
  | cycleOk
  | cycleError
  | sleep
  | stop
deriving DecidableEq, Repr

/-- The event logged for one cycle body: `execute_task` returning normally
logs success, an exception is caught by the `except` clause and logged. -/
def cycleEv : Outcome → Ev
  | Outcome.ok => Ev.cycleOk
  | Outcome.failed => Ev.cycleError

/-- The trace of `BaseWorker.start`: `outcomes` schedules the result of each
cycle in the observation window, and `stopAfter` is the number of
`while self.is_running` checks that still see the flag true (a `stop` call
flips the flag at an await point; it is observed at the next loop check).
Each loop iteration runs the cycle, logs its outcome, sleeps, and re-checks. -/
def loopTrace : List Outcome → Nat → List Ev
  | _, 0 => [Ev.stop]
  | [], _ + 1 => []
  | o :: rest, n + 1 =>
      Ev.cycleStart :: cycleEv o :: Ev.sleep :: loopTrace rest n

/-! Concrete inputs used by the scenario theorems, witnesses and
counterexamples. -/

/-- 2023-01-01, morning. -/
def dJan1 : DT := ⟨230101, 3⟩

/-- 2023-01-01, later the same day. -/
def dJan1b : DT := ⟨230101, 7⟩

/-- 2023-01-02. -/
def dJan2 : DT := ⟨230102, 4⟩

/-- The normalized category of scenario A/B. -/
def ecName : List Char := "EC-Earth".toList

/-- Raw value with a trailing slash. -/
def ecRawSlash : List Char := "EC-Earth/".toList

/-- Raw value wrapped in single quotes. -/
def ecRawQuoted : List Char := quoteChar :: "EC-Earth".toList ++ [quoteChar]

/-- Scenario A source: e1 and e2, both created 2023-01-01. -/
def rowsA : List SourceRecord :=
  [⟨"e1", "n1", ecRawSlash, dJan1⟩, ⟨"e2", "n2", ecRawQuoted, dJan1b⟩]

/-- Scenario B source: scenario A plus e3 created 2023-01-02. -/
def rowsB : List SourceRecord := rowsA ++ [⟨"e3", "n3", ecName, dJan2⟩]

/-- The store after scenario A's cycle. -/
def storeA : Store := runCycles Store.empty [(rowsA, 10)]

/-- The store after scenario A's cycle followed by scenario B's cycle. -/
def storeB : Store := runCycles Store.empty [(rowsA, 10), (rowsB, 20)]

/-- A raw model name whose cleaning is not idempotent: a quoted name with a
trailing slash inside the quotes. -/
def badName : List Char := [quoteChar, 'a', '/', quoteChar]

/-- A source whose raw model "NA/" is not denylisted but normalizes to the
denylisted value "NA". -/
def naRows : List SourceRecord := [⟨"e9", "n9", "NA/".toList, dJan1⟩]

/-- Single-character model name used by the conservation counterexample. -/
def mName : List Char := "M".toList

/-- Conservation counterexample run: the second cycle delivers a new member
(e4) under the already-persisted bucket key (2023-01-01, M) and another new
member (e5) under a fresh key (2023-01-02, M). -/
def cxCycles : List Cycle :=
  [([⟨"e1", "n1", mName, dJan1⟩], 10),
   ([⟨"e1", "n1", mName, dJan1⟩, ⟨"e4", "n4", mName, dJan1b⟩,
     ⟨"e5", "n5", mName, dJan2⟩], 20)]

/-- The store at the end of the conservation counterexample run. -/
def cxStore : Store := runCycles Store.empty cxCycles

/-- 2023-01-03. -/
def dJan3 : DT := ⟨230103, 2⟩

/-- Tie counterexample, cycle 1: one M-record on 2023-01-01 and two
M-records on 2023-01-02, all extracted at timestamp 10, so the cycle stages
two M-buckets (totals 1 and 3) carrying the same extraction time. -/
def tieRows1 : List SourceRecord :=
  [⟨"e1", "n1", mName, dJan1⟩, ⟨"e2", "n2", mName, dJan2⟩,
   ⟨"e3", "n3", mName, ⟨230102, 9⟩⟩]

/-- Tie counterexample, cycle 2: the unchanged source plus one new M-record
on 2023-01-03, extracted at timestamp 20. -/
def tieRows2 : List SourceRecord := tieRows1 ++ [⟨"e4", "n4", mName, dJan3⟩]

/-- The tie-counterexample run. -/
def tieCycles : List Cycle := [(tieRows1, 10), (tieRows2, 20)]

/-- The ordering invariant between two persisted popularity rows, in
insertion order: extraction times never decrease, and within one model the
cumulative totals never decrease. -/
def Rel (a b : Bucket) : Prop :=
  a.extracted_time ≤ b.extracted_time ∧
  (a.model = b.model → a.total_count ≤ b.total_count)

/-- Strict ordering of extraction times, used per model: when every model's
rows carry pairwise distinct extraction times, the latest-row query has a
unique answer and its tie behavior is irrelevant. -/
def RelT (a b : Bucket) : Prop := a.extracted_time < b.extracted_time

/-- Invariant of the `_update_timescaledb` loop under latest-row resolution
`pick`, relating the pre-cycle store `s`, the cycle timestamp `now` and the
loop state: pre-cycle rows lie strictly before the cycle timestamp, staged
entries carry exactly the cycle timestamp, the combined row list keeps the
pairwise ordering invariant and per-model strict time ordering, every
combined row's total is bounded by the in-memory cumulative of its model,
and staged entries only use keys that were not persisted when the cycle
snapshotted the key set. -/
structure Inv1P (pick : List Bucket → Option Bucket) (s : Store) (now : Nat)
    (ls : LoopState) : Prop where
  timeLT : ∀ b ∈ s.buckets, b.extracted_time < now
  etime : ∀ b ∈ ls.entries, b.extracted_time = now
  pw : List.Pairwise Rel (s.buckets ++ ls.entries)
  tdist : ∀ m, List.Pairwise RelT (catL (s.buckets ++ ls.entries) m)
  bound : ∀ m, ∀ b ∈ catL (s.buckets ++ ls.entries) m,
    b.total_count ≤ histSeedP pick s ls m
  fresh : ∀ b ∈ ls.entries, bkey b ∉ bucketKeysL s.buckets

/-- Conservation invariant of the `_update_timescaledb` loop under
resolution `pick`: the canonical (tie-to-last) latest-row seed of the
combined row list agrees with the in-memory cumulative, which in turn equals
the per-model sum of increments, and the staged entries carry distinct
keys. -/
structure Inv2P (pick : List Bucket → Option Bucket) (s : Store) (now : Nat)
    (ls : LoopState) : Prop where
  seedeq : ∀ m, seedL (s.buckets ++ ls.entries) m = histSeedP pick s ls m
  sumeq : ∀ m, histSeedP pick s ls m = sumCountsL (s.buckets ++ ls.entries) m
  keysnd : (ls.entries.map bkey).Nodup

/-! ### Normalization lemmas -/

theorem rstripSlash_idem (s : List Char) :
    rstripSlash (rstripSlash s) = rstripSlash s := by
  unfold rstripSlash
  rw [List.reverse_reverse, List.dropWhile_idempotent]

theorem clean_model_name_of_unquoted (s : List Char) (hs : s ≠ [])
    (h : ¬((rstripSlash s).head? = some quoteChar ∧
           (rstripSlash s).getLast? = some quoteChar)) :
    clean_model_name s = rstripSlash s := by
  rw [clean_model_name, if_neg hs, if_neg h]

/-! ### Lemmas about the latest-row query and category filters -/

theorem foldl_pickStep_some (l : List Bucket) :
    ∀ a : Bucket, ∃ c, (c = a ∨ c ∈ l) ∧ l.foldl pickStep (some a) = some c := by
  induction l with
  | nil => intro a; exact ⟨a, Or.inl rfl, rfl⟩
  | cons b t ih =>
      intro a
      simp only [List.foldl_cons]
      have hstep : pickStep (some a) b =
          if a.extracted_time ≤ b.extracted_time then some b else some a := rfl
      by_cases hab : a.extracted_time ≤ b.extracted_time
      · rw [hstep, if_pos hab]
        obtain ⟨c, hc, heq⟩ := ih b
        refine ⟨c, ?_, heq⟩
        rcases hc with h1 | h1
        · exact Or.inr (by simp [h1])
        · exact Or.inr (by simp [h1])
      · rw [hstep, if_neg hab]
        obtain ⟨c, hc, heq⟩ := ih a
        refine ⟨c, ?_, heq⟩
        rcases hc with h1 | h1
        · exact Or.inl h1
        · exact Or.inr (by simp [h1])

theorem pickLatest_mem {l : List Bucket} {b : Bucket}
    (h : pickLatest l = some b) : b ∈ l := by
  cases l with
  | nil => simp [pickLatest] at h
  | cons hd t =>
      have : pickLatest (hd :: t) = t.foldl pickStep (some hd) := rfl
      rw [this] at h
      obtain ⟨c, hc, heq⟩ := foldl_pickStep_some t hd
      rw [heq] at h
      obtain rfl : c = b := by injection h
      rcases hc with h1 | h1
      · simp [h1]
      · simp [h1]

theorem pickLatest_append_single (l : List Bucket) (b : Bucket)
    (h : ∀ a ∈ l, a.extracted_time ≤ b.extracted_time) :
    pickLatest (l ++ [b]) = some b := by
  unfold pickLatest
  rw [List.foldl_append]
  rcases hl : List.foldl pickStep none l with _ | a
  · rfl
  · have ha : a ∈ l := pickLatest_mem hl
    simp only [List.foldl_cons, List.foldl_nil]
    show pickStep (some a) b = some b
    show (if a.extracted_time ≤ b.extracted_time then some b else some a) = some b
    rw [if_pos (h a ha)]

theorem catL_append (l1 l2 : List Bucket) (m : List Char) :
    catL (l1 ++ l2) m = catL l1 m ++ catL l2 m := by
  unfold catL; rw [List.filter_append]

theorem catL_single_eq {b : Bucket} {m : List Char} (h : b.model = m) :
    catL [b] m = [b] := by
  simp [catL, h]

theorem catL_single_ne {b : Bucket} {m : List Char} (h : b.model ≠ m) :
    catL [b] m = [] := by
  simp [catL, h]

theorem mem_catL {l : List Bucket} {m : List Char} {b : Bucket}
    (h : b ∈ catL l m) : b ∈ l ∧ b.model = m := by
  unfold catL at h
  have := List.mem_filter.mp h
  exact ⟨this.1, by simpa using this.2⟩

theorem mem_catL_of (l : List Bucket) {m : List Char} {b : Bucket}
    (hb : b ∈ l) (hm : b.model = m) : b ∈ catL l m := by
  unfold catL
  exact List.mem_filter.mpr ⟨hb, by simpa using hm⟩

theorem sumCountsL_append_single_eq (l : List Bucket) {b : Bucket}
    {m : List Char} (h : b.model = m) :
    sumCountsL (l ++ [b]) m = sumCountsL l m + b.count := by
  unfold sumCountsL
  rw [catL_append, catL_single_eq h]
  simp

theorem seedL_append_single_eq (l : List Bucket) {b : Bucket} {m : List Char}
    (hm : b.model = m)
    (htime : ∀ a ∈ catL l m, a.extracted_time ≤ b.extracted_time) :
    seedL (l ++ [b]) m = b.total_count := by
  unfold seedL seedLP
  rw [catL_append, catL_single_eq hm, pickLatest_append_single _ _ htime]

theorem seedL_append_single_ne (l : List Bucket) {b : Bucket} {m : List Char}
    (hm : b.model ≠ m) : seedL (l ++ [b]) m = seedL l m := by
  unfold seedL seedLP sumCountsL
  rw [catL_append, catL_single_ne hm, List.append_nil]

theorem sumCountsL_append_single_ne (l : List Bucket) {b : Bucket}
    {m : List Char} (hm : b.model ≠ m) :
    sumCountsL (l ++ [b]) m = sumCountsL l m := by
  unfold sumCountsL
  rw [catL_append, catL_single_ne hm, List.append_nil]

/-! ### The two tie resolutions satisfy the latest-row contract -/

theorem foldl_pickStep_ge (l : List Bucket) :
    ∀ (a0 c : Bucket), l.foldl pickStep (some a0) = some c →
      a0.extracted_time ≤ c.extracted_time ∧
      ∀ a ∈ l, a.extracted_time ≤ c.extracted_time := by
  induction l with
  | nil =>
      intro a0 c h
      obtain rfl : a0 = c := by injection h
      exact ⟨le_refl _, by simp⟩
  | cons b t ih =>
      intro a0 c h
      simp only [List.foldl_cons] at h
      have hstep : pickStep (some a0) b =
          if a0.extracted_time ≤ b.extracted_time then some b else some a0 := rfl
      by_cases hab : a0.extracted_time ≤ b.extracted_time
      · rw [hstep, if_pos hab] at h
        obtain ⟨h1, h2⟩ := ih b c h
        refine ⟨le_trans hab h1, ?_⟩
        intro a ha
        rcases List.mem_cons.mp ha with rfl | ha2
        · exact h1
        · exact h2 a ha2
      · rw [hstep, if_neg hab] at h
        obtain ⟨h1, h2⟩ := ih a0 c h
        refine ⟨h1, ?_⟩
        intro a ha
        rcases List.mem_cons.mp ha with rfl | ha2
        · omega
        · exact h2 a ha2

theorem isLatestQuery_pickLatest : IsLatestQuery pickLatest := by
  constructor
  · intro l
    cases l with
    | nil => simp [pickLatest]
    | cons hd t =>
        constructor
        · intro h
          obtain ⟨c, _, heq⟩ := foldl_pickStep_some t hd
          rw [show pickLatest (hd :: t) = t.foldl pickStep (some hd) from rfl,
            heq] at h
          exact absurd h (by simp)
        · intro h; simp at h
  · intro l b h
    refine ⟨pickLatest_mem h, ?_⟩
    cases l with
    | nil => simp [pickLatest] at h
    | cons hd t =>
        rw [show pickLatest (hd :: t) = t.foldl pickStep (some hd) from rfl] at h
        obtain ⟨h1, h2⟩ := foldl_pickStep_ge t hd b h
        intro a ha
        rcases List.mem_cons.mp ha with rfl | ha2
        · exact h1
        · exact h2 a ha2

theorem foldl_pickFirstStep_some (l : List Bucket) :
    ∀ a : Bucket, ∃ c, (c = a ∨ c ∈ l) ∧
      l.foldl pickFirstStep (some a) = some c := by
  induction l with
  | nil => intro a; exact ⟨a, Or.inl rfl, rfl⟩
  | cons b t ih =>
      intro a
      simp only [List.foldl_cons]
      have hstep : pickFirstStep (some a) b =
          if a.extracted_time < b.extracted_time then some b else some a := rfl
      by_cases hab : a.extracted_time < b.extracted_time
      · rw [hstep, if_pos hab]
        obtain ⟨c, hc, heq⟩ := ih b
        refine ⟨c, ?_, heq⟩
        rcases hc with h1 | h1
        · exact Or.inr (by simp [h1])
        · exact Or.inr (by simp [h1])
      · rw [hstep, if_neg hab]
        obtain ⟨c, hc, heq⟩ := ih a
        refine ⟨c, ?_, heq⟩
        rcases hc with h1 | h1
        · exact Or.inl h1
        · exact Or.inr (by simp [h1])

theorem foldl_pickFirstStep_ge (l : List Bucket) :
    ∀ (a0 c : Bucket), l.foldl pickFirstStep (some a0) = some c →
      a0.extracted_time ≤ c.extracted_time ∧
      ∀ a ∈ l, a.extracted_time ≤ c.extracted_time := by
  induction l with
  | nil =>
      intro a0 c h
      obtain rfl : a0 = c := by injection h
      exact ⟨le_refl _, by simp⟩
  | cons b t ih =>
      intro a0 c h
      simp only [List.foldl_cons] at h
      have hstep : pickFirstStep (some a0) b =
          if a0.extracted_time < b.extracted_time then some b else some a0 := rfl
      by_cases hab : a0.extracted_time < b.extracted_time
      · rw [hstep, if_pos hab] at h
        obtain ⟨h1, h2⟩ := ih b c h
        refine ⟨le_trans (le_of_lt hab) h1, ?_⟩
        intro a ha
        rcases List.mem_cons.mp ha with rfl | ha2
        · exact h1
        · exact h2 a ha2
      · rw [hstep, if_neg hab] at h
        obtain ⟨h1, h2⟩ := ih a0 c h
        refine ⟨h1, ?_⟩
        intro a ha
        rcases List.mem_cons.mp ha with rfl | ha2
        · omega
        · exact h2 a ha2

theorem isLatestQuery_pickFirstMax : IsLatestQuery pickFirstMax := by
  constructor
  · intro l
    cases l with
    | nil => simp [pickFirstMax]
    | cons hd t =>
        constructor
        · intro h
          obtain ⟨c, _, heq⟩ := foldl_pickFirstStep_some t hd
          rw [show pickFirstMax (hd :: t) = t.foldl pickFirstStep (some hd)
            from rfl, heq] at h
          exact absurd h (by simp)
        · intro h; simp at h
  · intro l b h
    cases l with
    | nil => simp [pickFirstMax] at h
    | cons hd t =>
        rw [show pickFirstMax (hd :: t) = t.foldl pickFirstStep (some hd)
          from rfl] at h
        obtain ⟨c, hc, heq⟩ := foldl_pickFirstStep_some t hd
        obtain ⟨h1, h2⟩ := foldl_pickFirstStep_ge t hd c heq
        rw [heq] at h
        obtain rfl : c = b := by injection h
        refine ⟨?_, ?_⟩
        · rcases hc with h3 | h3
          · simp [h3]
          · simp [h3]
        · intro a ha
          rcases List.mem_cons.mp ha with rfl | ha2
          · exact h1
          · exact h2 a ha2

/-! ### Consequences of the ordering invariants -/

theorem valid_pick_getLast {pick : List Bucket → Option Bucket}
    (hq : IsLatestQuery pick) (l : List Bucket) (hne : l ≠ [])
    (htd : List.Pairwise RelT l) : pick l = some (l.getLast hne) := by
  rcases hp : pick l with _ | b
  · exact absurd ((hq.1 l).mp hp) hne
  · obtain ⟨hmem, hmax⟩ := hq.2 l b hp
    have hdec : l.dropLast ++ [l.getLast hne] = l :=
      List.dropLast_append_getLast hne
    have hb2 : b ∈ l.dropLast ++ [l.getLast hne] := by rw [hdec]; exact hmem
    rcases List.mem_append.mp hb2 with h1 | h1
    · exfalso
      have hpw2 : List.Pairwise RelT (l.dropLast ++ [l.getLast hne]) := by
        rw [hdec]; exact htd
      have hlt : b.extracted_time < (l.getLast hne).extracted_time :=
        (List.pairwise_append.mp hpw2).2.2 b h1 _ (by simp)
      have hge : (l.getLast hne).extracted_time ≤ b.extracted_time :=
        hmax _ (List.getLast_mem hne)
      omega
    · have : b = l.getLast hne := by simpa using h1
      rw [this]

theorem bound_of_pairwise_strict {pick : List Bucket → Option Bucket}
    (hq : IsLatestQuery pick) {l : List Bucket}
    (hpw : List.Pairwise Rel l) (m : List Char)
    (htd : List.Pairwise RelT (catL l m)) :
    ∀ b ∈ catL l m, b.total_count ≤ seedLP pick l m := by
  intro b hb
  have hcl : List.Pairwise Rel (catL l m) := hpw.filter _
  have hne : catL l m ≠ [] := List.ne_nil_of_mem hb
  have hpl : pick (catL l m) = some ((catL l m).getLast hne) :=
    valid_pick_getLast hq (catL l m) hne htd
  have hseed : seedLP pick l m = ((catL l m).getLast hne).total_count := by
    unfold seedLP
    rw [hpl]
  rw [hseed]
  have hdec : (catL l m).dropLast ++ [(catL l m).getLast hne] = catL l m :=
    List.dropLast_append_getLast hne
  have hb2 : b ∈ (catL l m).dropLast ++ [(catL l m).getLast hne] := by
    rw [hdec]; exact hb
  rcases List.mem_append.mp hb2 with h1 | h1
  · have hpw2 : List.Pairwise Rel
        ((catL l m).dropLast ++ [(catL l m).getLast hne]) := by
      rw [hdec]; exact hcl
    have hrel : Rel b ((catL l m).getLast hne) :=
      (List.pairwise_append.mp hpw2).2.2 b h1 _ (by simp)
    have hbm : b.model = m := (mem_catL hb).2
    have hlm : ((catL l m).getLast hne).model = m :=
      (mem_catL (List.getLast_mem hne)).2
    exact hrel.2 (hbm.trans hlm.symm)
  · have : b = (catL l m).getLast hne := by simpa using h1
    rw [this]

theorem seedLP_eq_seedL {pick : List Bucket → Option Bucket}
    (hq : IsLatestQuery pick) (l : List Bucket) (m : List Char)
    (htd : List.Pairwise RelT (catL l m)) :
    seedLP pick l m = seedL l m := by
  rcases hcl : catL l m with _ | ⟨hd, t⟩
  · unfold seedL seedLP
    rw [hcl, (hq.1 []).mpr rfl, (isLatestQuery_pickLatest.1 []).mpr rfl]
  · have hne : catL l m ≠ [] := by rw [hcl]; simp
    unfold seedL seedLP
    rw [valid_pick_getLast hq (catL l m) hne htd,
      valid_pick_getLast isLatestQuery_pickLatest (catL l m) hne htd]

theorem pairwise_two_mem {l : List Bucket} (h : List.Pairwise Rel l)
    {a b : Bucket} (ha : a ∈ l) (hb : b ∈ l) (hm : a.model = b.model)
    (htime : a.extracted_time < b.extracted_time) :
    a.total_count ≤ b.total_count := by
  obtain ⟨i, hi, rfl⟩ := List.mem_iff_getElem.mp ha
  obtain ⟨j, hj, rfl⟩ := List.mem_iff_getElem.mp hb
  rcases lt_trichotomy i j with hij | hij | hij
  · exact ((List.pairwise_iff_getElem.mp h) i j hi hj hij).2 hm
  · subst hij
    exact absurd htime (lt_irrefl _)
  · have := ((List.pairwise_iff_getElem.mp h) j i hj hi hij).1
    omega

/-! ### Lemmas about the insert-or-ignore folds -/

theorem foldl_insBucket_split (es : List Bucket) :
    ∀ acc : List Bucket, ∃ es2, List.Sublist es2 es ∧
      es.foldl insBucket acc = acc ++ es2 := by
  induction es with
  | nil => intro acc; exact ⟨[], List.Sublist.refl _, (List.append_nil acc).symm⟩
  | cons b t ih =>
      intro acc
      simp only [List.foldl_cons]
      by_cases hdup : bkey b ∈ bucketKeysL acc
      · have hstep : insBucket acc b = acc := by unfold insBucket; rw [if_pos hdup]
        rw [hstep]
        obtain ⟨es2, hsub, heq⟩ := ih acc
        exact ⟨es2, hsub.cons b, heq⟩
      · have hstep : insBucket acc b = acc ++ [b] := by
          unfold insBucket; rw [if_neg hdup]
        rw [hstep]
        obtain ⟨es2, hsub, heq⟩ := ih (acc ++ [b])
        refine ⟨b :: es2, hsub.cons₂ b, ?_⟩
        rw [heq, List.append_assoc]
        rfl

theorem foldl_insBucket_all_fresh (es : List Bucket) :
    ∀ acc : List Bucket, (∀ b ∈ es, bkey b ∉ bucketKeysL acc) →
      (es.map bkey).Nodup → es.foldl insBucket acc = acc ++ es := by
  induction es with
  | nil => intro acc _ _; exact (List.append_nil acc).symm
  | cons b t ih =>
      intro acc hfresh hnd
      simp only [List.foldl_cons]
      have hstep : insBucket acc b = acc ++ [b] := by
        unfold insBucket; rw [if_neg (hfresh b (by simp))]
      rw [hstep]
      have hnd2 : (t.map bkey).Nodup := by
        simpa using (List.nodup_cons.mp (by simpa using hnd)).2
      have hb_notin : bkey b ∉ t.map bkey :=
        (List.nodup_cons.mp (by simpa using hnd)).1
      have hfresh2 : ∀ x ∈ t, bkey x ∉ bucketKeysL (acc ++ [b]) := by
        intro x hx
        unfold bucketKeysL
        rw [List.map_append]
        intro hmem
        rcases List.mem_append.mp hmem with h1 | h1
        · exact hfresh x (by simp [hx]) h1
        · have : bkey x = bkey b := by simpa using h1
          exact hb_notin (this ▸ List.mem_map_of_mem bkey hx)
      rw [ih (acc ++ [b]) hfresh2 hnd2, List.append_assoc]
      rfl

theorem mem_ids_foldl_insMember_of_acc (ms : List MemberRow) :
    ∀ (acc : List MemberRow) (x : String), x ∈ acc.map (·.id) →
      x ∈ (ms.foldl insMember acc).map (·.id) := by
  induction ms with
  | nil => intro acc x hx; exact hx
  | cons r t ih =>
      intro acc x hx
      simp only [List.foldl_cons]
      unfold insMember
      by_cases hdup : r.id ∈ acc.map (·.id)
      · rw [if_pos hdup]; exact ih acc x hx
      · rw [if_neg hdup]
        exact ih (acc ++ [r]) x (by rw [List.map_append]; exact List.mem_append_left _ hx)

theorem mem_ids_foldl_insMember_of_mem (ms : List MemberRow) :
    ∀ (acc : List MemberRow) (r : MemberRow), r ∈ ms →
      r.id ∈ (ms.foldl insMember acc).map (·.id) := by
  induction ms with
  | nil => intro acc r hr; simp at hr
  | cons r0 t ih =>
      intro acc r hr
      simp only [List.foldl_cons]
      rcases List.mem_cons.mp hr with rfl | hrt
      · unfold insMember
        by_cases hdup : r.id ∈ acc.map (·.id)
        · rw [if_pos hdup]
          exact mem_ids_foldl_insMember_of_acc t acc r.id hdup
        · rw [if_neg hdup]
          exact mem_ids_foldl_insMember_of_acc t (acc ++ [r]) r.id
            (by rw [List.map_append]; exact List.mem_append_right _ (by simp))
      · exact ih _ r hrt

/-! ### Lemmas about the in-memory cumulative dictionary -/

theorem hFind_hUpdate (h : List (List Char × Nat)) :
    ∀ (m : List Char) (v : Nat) (m' : List Char),
      hFind (hUpdate h m v) m' = if m' = m then some v else hFind h m' := by
  induction h with
  | nil =>
      intro m v m'
      by_cases hm : m' = m
      · simp [hUpdate, hFind, hm]
      · simp [hUpdate, hFind, hm, Ne.symm hm]
  | cons kv t ih =>
      intro m v m'
      obtain ⟨k, x⟩ := kv
      show hFind (if k = m then (k, v) :: t else (k, x) :: hUpdate t m v) m' = _
      by_cases hk : k = m
      · subst hk
        by_cases hm : m' = k
        · simp [hFind, hm]
        · simp [hFind, hm, Ne.symm hm]
      · rw [if_neg hk]
        by_cases hkm : k = m'
        · subst hkm
          have hm : ¬(k = m) := hk
          simp [hFind, hm]
        · show (if k = m' then some x else hFind (hUpdate t m v) m') = _
          rw [if_neg hkm, ih]
          by_cases hm : m' = m
          · rw [if_pos hm, if_pos hm]
          · rw [if_neg hm, if_neg hm]
            show hFind t m' = if k = m' then some x else hFind t m'
            rw [if_neg hkm]

theorem histSeedP_hUpdate_eq (pick : List Bucket → Option Bucket) (s : Store)
    (ls : LoopState) (m : List Char) (v : Nat) (ids2 : List String)
    (en2 : List Bucket) (ins2 : List MemberRow) :
    histSeedP pick s ⟨ids2, hUpdate ls.hist m v, en2, ins2⟩ m = v := by
  unfold histSeedP
  rw [hFind_hUpdate, if_pos rfl]

theorem histSeedP_hUpdate_ne (pick : List Bucket → Option Bucket) (s : Store)
    (ls : LoopState) {m m' : List Char} (h : m' ≠ m) (v : Nat)
    (ids2 : List String) (en2 : List Bucket) (ins2 : List MemberRow) :
    histSeedP pick s ⟨ids2, hUpdate ls.hist m v, en2, ins2⟩ m' =
      histSeedP pick s ⟨ls.existingIds, ls.hist, ls.entries, ls.inserted⟩ m' := by
  unfold histSeedP
  rw [hFind_hUpdate, if_neg h]

/-! ### Shape lemmas for one loop iteration -/

theorem stepGroupP_skip {ls : LoopState} {g : Group}
    (pick : List Bucket → Option Bucket) (s : Store) (now : Nat)
    (h : newMembers ls g = []) : stepGroupP pick s now ls g = ls := by
  unfold stepGroupP
  rw [if_pos h]

theorem stepGroupP_ids_mono (pick : List Bucket → Option Bucket) (s : Store)
    (now : Nat) (ls : LoopState) (g : Group) :
    ∀ x ∈ ls.existingIds, x ∈ (stepGroupP pick s now ls g).existingIds := by
  intro x hx
  unfold stepGroupP
  by_cases h : newMembers ls g = []
  · rw [if_pos h]; exact hx
  · rw [if_neg h]; exact List.mem_append_left _ hx

theorem foldl_ids_mono (pick : List Bucket → Option Bucket) (s : Store)
    (now : Nat) :
    ∀ (groups : List Group) (ls : LoopState) (x : String),
      x ∈ ls.existingIds →
      x ∈ (groups.foldl (stepGroupP pick s now) ls).existingIds := by
  intro groups
  induction groups with
  | nil => intro ls x hx; exact hx
  | cons g rest ih =>
      intro ls x hx
      exact ih _ x (stepGroupP_ids_mono pick s now ls g x hx)

theorem stepGroupP_covers (pick : List Bucket → Option Bucket) (s : Store)
    (now : Nat) (ls : LoopState) (g : Group) :
    ∀ e ∈ g.2.experiments, e.id ∈ (stepGroupP pick s now ls g).existingIds := by
  intro e he
  unfold stepGroupP
  by_cases h : newMembers ls g = []
  · rw [if_pos h]
    have := List.filter_eq_nil_iff.mp h e he
    simpa using this
  · rw [if_neg h]
    by_cases hid : e.id ∈ ls.existingIds
    · exact List.mem_append_left _ hid
    · refine List.mem_append_right _ ?_
      have hmem : e ∈ newMembers ls g :=
        List.mem_filter.mpr ⟨he, by simpa using hid⟩
      have : (newRows ls g).map (·.id) = (newMembers ls g).map (·.id) := by
        unfold newRows
        rw [List.map_map]
        rfl
      rw [this]
      exact List.mem_map_of_mem _ hmem

theorem foldl_covers (pick : List Bucket → Option Bucket) (s : Store)
    (now : Nat) :
    ∀ (groups : List Group) (ls : LoopState),
      ∀ g ∈ groups, ∀ e ∈ g.2.experiments,
        e.id ∈ (groups.foldl (stepGroupP pick s now) ls).existingIds := by
  intro groups
  induction groups with
  | nil => intro ls g hg; simp at hg
  | cons g0 rest ih =>
      intro ls g hg e he
      rcases List.mem_cons.mp hg with rfl | hgr
      · exact foldl_ids_mono pick s now rest _ e.id
          (stepGroupP_covers pick s now ls g e he)
      · exact ih _ g hgr e he

theorem stepGroupP_ids_from (pick : List Bucket → Option Bucket) (s : Store)
    (now : Nat) (ls : LoopState) (g : Group)
    (h : ∀ x ∈ ls.existingIds, x ∈ memberIds s ∨ x ∈ ls.inserted.map (·.id)) :
    ∀ x ∈ (stepGroupP pick s now ls g).existingIds,
      x ∈ memberIds s ∨ x ∈ (stepGroupP pick s now ls g).inserted.map (·.id) := by
  intro x hx
  unfold stepGroupP at hx ⊢
  by_cases hnew : newMembers ls g = []
  · rw [if_pos hnew] at hx ⊢; exact h x hx
  · rw [if_neg hnew] at hx ⊢
    simp only at hx ⊢
    rcases List.mem_append.mp hx with h1 | h1
    · rcases h x h1 with h2 | h2
      · exact Or.inl h2
      · exact Or.inr (by rw [List.map_append]; exact List.mem_append_left _ h2)
    · exact Or.inr (by rw [List.map_append]; exact List.mem_append_right _ h1)

theorem foldl_ids_from (pick : List Bucket → Option Bucket) (s : Store)
    (now : Nat) :
    ∀ (groups : List Group) (ls : LoopState),
      (∀ x ∈ ls.existingIds, x ∈ memberIds s ∨ x ∈ ls.inserted.map (·.id)) →
      ∀ x ∈ (groups.foldl (stepGroupP pick s now) ls).existingIds,
        x ∈ memberIds s ∨
        x ∈ (groups.foldl (stepGroupP pick s now) ls).inserted.map (·.id) := by
  intro groups
  induction groups with
  | nil => intro ls h; exact h
  | cons g rest ih =>
      intro ls h
      exact ih _ (stepGroupP_ids_from pick s now ls g h)

theorem stepGroupP_etime (pick : List Bucket → Option Bucket) (s : Store)
    (now : Nat) (ls : LoopState) (g : Group)
    (h : ∀ b ∈ ls.entries, b.extracted_time = now) :
    ∀ b ∈ (stepGroupP pick s now ls g).entries, b.extracted_time = now := by
  intro b hb
  unfold stepGroupP at hb
  by_cases hnew : newMembers ls g = []
  · rw [if_pos hnew] at hb; exact h b hb
  · rw [if_neg hnew] at hb
    simp only at hb
    by_cases hkey : g.1 ∈ bucketKeysL s.buckets
    · rw [if_pos hkey] at hb; exact h b hb
    · rw [if_neg hkey] at hb
      rcases List.mem_append.mp hb with h1 | h1
      · exact h b h1
      · have : b = ⟨g.1.1, g.1.2, (newMembers ls g).length,
            histSeedP pick s ls g.1.2 + (newMembers ls g).length, now⟩ := by
          simpa using h1
        rw [this]

theorem foldl_etime (pick : List Bucket → Option Bucket) (s : Store)
    (now : Nat) :
    ∀ (groups : List Group) (ls : LoopState),
      (∀ b ∈ ls.entries, b.extracted_time = now) →
      ∀ b ∈ (groups.foldl (stepGroupP pick s now) ls).entries,
        b.extracted_time = now := by
  intro groups
  induction groups with
  | nil => intro ls h; exact h
  | cons g rest ih =>
      intro ls h
      exact ih _ (stepGroupP_etime pick s now ls g h)

theorem stepGroupP_entries_cases (pick : List Bucket → Option Bucket)
    (s : Store) (now : Nat) (ls : LoopState) (g : Group) :
    ∀ b ∈ (stepGroupP pick s now ls g).entries,
      b ∈ ls.entries ∨ bkey b = g.1 := by
  intro b hb
  unfold stepGroupP at hb
  by_cases hnew : newMembers ls g = []
  · rw [if_pos hnew] at hb; exact Or.inl hb
  · rw [if_neg hnew] at hb
    simp only at hb
    by_cases hkey : g.1 ∈ bucketKeysL s.buckets
    · rw [if_pos hkey] at hb; exact Or.inl hb
    · rw [if_neg hkey] at hb
      rcases List.mem_append.mp hb with h1 | h1
      · exact Or.inl h1
      · refine Or.inr ?_
        have : b = ⟨g.1.1, g.1.2, (newMembers ls g).length,
            histSeedP pick s ls g.1.2 + (newMembers ls g).length, now⟩ := by
          simpa using h1
        rw [this]
        rfl

theorem stepGroupP_entries_shape (pick : List Bucket → Option Bucket)
    (s : Store) (now : Nat) (ls : LoopState) (g : Group) :
    (stepGroupP pick s now ls g).entries = ls.entries ∨
    ∃ b : Bucket, b.model = g.1.2 ∧
      (stepGroupP pick s now ls g).entries = ls.entries ++ [b] := by
  unfold stepGroupP
  by_cases hnew : newMembers ls g = []
  · rw [if_pos hnew]; exact Or.inl rfl
  · rw [if_neg hnew]
    simp only
    by_cases hkey : g.1 ∈ bucketKeysL s.buckets
    · rw [if_pos hkey]; exact Or.inl rfl
    · rw [if_neg hkey]
      exact Or.inr ⟨_, rfl, rfl⟩

theorem foldl_entries_extend (pick : List Bucket → Option Bucket) (s : Store)
    (now : Nat) :
    ∀ (groups : List Group) (ls : LoopState),
      ∃ es, (groups.foldl (stepGroupP pick s now) ls).entries =
        ls.entries ++ es := by
  intro groups
  induction groups with
  | nil => intro ls; exact ⟨[], (List.append_nil _).symm⟩
  | cons g rest ih =>
      intro ls
      obtain ⟨es, hes⟩ := ih (stepGroupP pick s now ls g)
      rcases stepGroupP_entries_shape pick s now ls g with h1 | ⟨b, _, h1⟩
      · exact ⟨es, by rw [List.foldl_cons, hes, h1]⟩
      · refine ⟨b :: es, ?_⟩
        rw [List.foldl_cons, hes, h1, List.append_assoc]
        rfl

theorem not_mem_of_append_singleton_nodup {α : Type} {l : List α} {a : α}
    (h : (l ++ [a]).Nodup) : a ∉ l := by
  intro hmem
  rcases List.nodup_append.mp h with ⟨_, _, hdisj⟩
  exact (hdisj hmem) (by simp)

/-! ### Preservation of the loop invariants -/

theorem inv1P_hist_bump (pick : List Bucket → Option Bucket) (s : Store)
    (now : Nat) (ls : LoopState) (h : Inv1P pick s now ls) (m0 : List Char)
    (c : Nat) (ids2 : List String) (ins2 : List MemberRow) :
    Inv1P pick s now ⟨ids2, hUpdate ls.hist m0 (histSeedP pick s ls m0 + c),
      ls.entries, ins2⟩ := by
  refine ⟨h.timeLT, h.etime, h.pw, h.tdist, ?_, h.fresh⟩
  intro m b hb
  by_cases hm : m = m0
  · subst hm
    rw [histSeedP_hUpdate_eq]
    exact le_trans (h.bound _ b hb) (Nat.le_add_right _ _)
  · rw [histSeedP_hUpdate_ne pick s ls hm]
    exact h.bound m b hb

theorem inv1P_append_bucket (pick : List Bucket → Option Bucket) (s : Store)
    (now : Nat) (ls : LoopState) (h : Inv1P pick s now ls) (date : DT)
    (m0 : List Char) (c : Nat) (hkey : (date, m0) ∉ bucketKeysL s.buckets)
    (hmodel : m0 ∉ ls.entries.map (·.model)) (ids2 : List String)
    (ins2 : List MemberRow) :
    Inv1P pick s now ⟨ids2, hUpdate ls.hist m0 (histSeedP pick s ls m0 + c),
      ls.entries ++ [⟨date, m0, c, histSeedP pick s ls m0 + c, now⟩], ins2⟩ := by
  have htimeX : ∀ a ∈ s.buckets ++ ls.entries, a.extracted_time ≤ now := by
    intro a ha
    rcases List.mem_append.mp ha with h1 | h1
    · exact le_of_lt (h.timeLT a h1)
    · exact le_of_eq (h.etime a h1)
  have hrel : ∀ a ∈ s.buckets ++ ls.entries,
      Rel a ⟨date, m0, c, histSeedP pick s ls m0 + c, now⟩ := by
    intro a ha
    refine ⟨htimeX a ha, ?_⟩
    intro hmod
    have hcat : a ∈ catL (s.buckets ++ ls.entries) m0 :=
      mem_catL_of _ ha hmod
    exact le_trans (h.bound m0 a hcat) (Nat.le_add_right _ _)
  have hsonly : ∀ a ∈ catL (s.buckets ++ ls.entries) m0, a ∈ s.buckets := by
    intro a ha
    obtain ⟨haX, ham⟩ := mem_catL ha
    rcases List.mem_append.mp haX with h1 | h1
    · exact h1
    · exact absurd (ham ▸ List.mem_map_of_mem (·.model) h1) hmodel
  constructor
  · -- timeLT
    exact h.timeLT
  · -- etime
    intro b hb
    rcases List.mem_append.mp hb with h1 | h1
    · exact h.etime b h1
    · have : b = ⟨date, m0, c, histSeedP pick s ls m0 + c, now⟩ := by
        simpa using h1
      rw [this]
  · -- pairwise
    show List.Pairwise Rel (s.buckets ++ (ls.entries ++ _))
    rw [← List.append_assoc]
    refine List.pairwise_append.mpr ⟨h.pw, List.pairwise_singleton _ _, ?_⟩
    intro a ha b hb
    have : b = ⟨date, m0, c, histSeedP pick s ls m0 + c, now⟩ := by
      simpa using hb
    rw [this]
    exact hrel a ha
  · -- per-model strict times
    intro m
    show List.Pairwise RelT (catL (s.buckets ++ (ls.entries ++ _)) m)
    rw [← List.append_assoc, catL_append]
    by_cases hm : m = m0
    · subst hm
      rw [catL_single_eq rfl]
      refine List.pairwise_append.mpr
        ⟨h.tdist _, List.pairwise_singleton _ _, ?_⟩
      intro a ha b hb
      have hb2 := List.mem_singleton.mp hb
      rw [hb2]
      exact h.timeLT a (hsonly a ha)
    · rw [catL_single_ne (fun hh => hm hh.symm), List.append_nil]
      exact h.tdist m
  · -- bound
    intro m b hb
    show b.total_count ≤ histSeedP pick s
      ⟨ids2, hUpdate ls.hist m0 (histSeedP pick s ls m0 + c), _, ins2⟩ m
    rw [← List.append_assoc, catL_append] at hb
    by_cases hm : m = m0
    · subst hm
      rw [histSeedP_hUpdate_eq]
      rcases List.mem_append.mp hb with h1 | h1
      · exact le_trans (h.bound _ b h1) (Nat.le_add_right _ _)
      · rw [catL_single_eq rfl] at h1
        have hb2 := List.mem_singleton.mp h1
        rw [hb2]
    · rw [histSeedP_hUpdate_ne pick s ls hm]
      rcases List.mem_append.mp hb with h1 | h1
      · exact h.bound m b h1
      · rw [catL_single_ne (fun hh => hm hh.symm)] at h1
        simp at h1
  · -- fresh
    intro b hb
    rcases List.mem_append.mp hb with h1 | h1
    · exact h.fresh b h1
    · have : b = ⟨date, m0, c, histSeedP pick s ls m0 + c, now⟩ := by
        simpa using h1
      rw [this]
      exact hkey

theorem stepGroupP_inv1 (pick : List Bucket → Option Bucket) (s : Store)
    (now : Nat) (ls : LoopState) (g : Group) (h : Inv1P pick s now ls)
    (hmodel : newMembers ls g ≠ [] → g.1 ∉ bucketKeysL s.buckets →
      g.1.2 ∉ ls.entries.map (·.model)) :
    Inv1P pick s now (stepGroupP pick s now ls g) := by
  by_cases hnew : newMembers ls g = []
  · rw [stepGroupP_skip pick s now hnew]; exact h
  · unfold stepGroupP
    rw [if_neg hnew]
    by_cases hkey : g.1 ∈ bucketKeysL s.buckets
    · rw [if_pos hkey]
      exact inv1P_hist_bump pick s now ls h g.1.2 (newMembers ls g).length _ _
    · rw [if_neg hkey]
      exact inv1P_append_bucket pick s now ls h g.1.1 g.1.2
        (newMembers ls g).length hkey (hmodel hnew hkey) _ _

theorem head_model_fresh (pick : List Bucket → Option Bucket) (s : Store)
    (now : Nat) (ls : LoopState) (g : Group) (rest : List Group)
    (hND : (((rest.foldl (stepGroupP pick s now)
        (stepGroupP pick s now ls g)).entries.map (·.model)).Nodup)) :
    newMembers ls g ≠ [] → g.1 ∉ bucketKeysL s.buckets →
    g.1.2 ∉ ls.entries.map (·.model) := by
  intro hnew hkey
  have hstep : (stepGroupP pick s now ls g).entries =
      ls.entries ++ [⟨g.1.1, g.1.2, (newMembers ls g).length,
        histSeedP pick s ls g.1.2 + (newMembers ls g).length, now⟩] := by
    unfold stepGroupP
    rw [if_neg hnew]
    simp only
    rw [if_neg hkey]
  obtain ⟨es, hes⟩ := foldl_entries_extend pick s now rest
    (stepGroupP pick s now ls g)
  rw [hes, hstep, List.map_append] at hND
  have hleft := hND.of_append_left
  rw [List.map_append] at hleft
  exact not_mem_of_append_singleton_nodup hleft

theorem foldl_inv1P (pick : List Bucket → Option Bucket) (s : Store)
    (now : Nat) :
    ∀ (groups : List Group) (ls : LoopState), Inv1P pick s now ls →
      (((groups.foldl (stepGroupP pick s now) ls).entries.map (·.model)).Nodup) →
      Inv1P pick s now (groups.foldl (stepGroupP pick s now) ls) := by
  intro groups
  induction groups with
  | nil => intro ls h _; exact h
  | cons g rest ih =>
      intro ls h hND
      rw [List.foldl_cons] at hND ⊢
      exact ih _ (stepGroupP_inv1 pick s now ls g h
        (head_model_fresh pick s now ls g rest hND)) hND

theorem inv2P_append_bucket (pick : List Bucket → Option Bucket) (s : Store)
    (now : Nat) (ls : LoopState) (h1 : Inv1P pick s now ls)
    (h2 : Inv2P pick s now ls) (date : DT) (m0 : List Char) (c : Nat)
    (hkey2 : (date, m0) ∉ ls.entries.map bkey) (ids2 : List String)
    (ins2 : List MemberRow) :
    Inv2P pick s now ⟨ids2, hUpdate ls.hist m0 (histSeedP pick s ls m0 + c),
      ls.entries ++ [⟨date, m0, c, histSeedP pick s ls m0 + c, now⟩], ins2⟩ := by
  have htimeX : ∀ a ∈ s.buckets ++ ls.entries, a.extracted_time ≤ now := by
    intro a ha
    rcases List.mem_append.mp ha with hx | hx
    · exact le_of_lt (h1.timeLT a hx)
    · exact le_of_eq (h1.etime a hx)
  constructor
  · -- seedeq
    intro m
    show seedL (s.buckets ++ (ls.entries ++ _)) m = _
    rw [← List.append_assoc]
    by_cases hm : m = m0
    · subst hm
      rw [histSeedP_hUpdate_eq]
      refine seedL_append_single_eq _ rfl ?_
      intro a ha
      exact htimeX a (mem_catL ha).1
    · rw [histSeedP_hUpdate_ne pick s ls hm,
        seedL_append_single_ne _ (fun hh => hm hh.symm)]
      exact h2.seedeq m
  · -- sumeq
    intro m
    show _ = sumCountsL (s.buckets ++ (ls.entries ++ _)) m
    rw [← List.append_assoc]
    by_cases hm : m = m0
    · subst hm
      rw [histSeedP_hUpdate_eq, sumCountsL_append_single_eq _ rfl]
      rw [← h2.sumeq m]
    · rw [histSeedP_hUpdate_ne pick s ls hm,
        sumCountsL_append_single_ne _ (fun hh => hm hh.symm)]
      exact h2.sumeq m
  · -- keysnd
    show ((ls.entries ++ _).map bkey).Nodup
    rw [List.map_append]
    have : (([⟨date, m0, c, histSeedP pick s ls m0 + c, now⟩] :
        List Bucket).map bkey) = [(date, m0)] := rfl
    rw [this]
    simp only [List.nodup_append, List.nodup_singleton, true_and]
    refine ⟨h2.keysnd, ?_⟩
    intro a ha hb
    have : a = (date, m0) := by simpa using hb
    rw [this] at ha
    exact hkey2 ha

theorem stepGroupP_inv2 (pick : List Bucket → Option Bucket) (s : Store)
    (now : Nat) (ls : LoopState) (g : Group) (h1 : Inv1P pick s now ls)
    (h2 : Inv2P pick s now ls)
    (hsub : ∀ x ∈ memberIds s, x ∈ ls.existingIds)
    (hg : (∃ e ∈ g.2.experiments, e.id ∉ memberIds s) →
      g.1 ∉ bucketKeysL s.buckets)
    (hdisj : g.1 ∉ ls.entries.map bkey) :
    Inv2P pick s now (stepGroupP pick s now ls g) := by
  by_cases hnew : newMembers ls g = []
  · rw [stepGroupP_skip pick s now hnew]; exact h2
  · obtain ⟨e, he⟩ := List.exists_mem_of_ne_nil _ hnew
    have he2 := List.mem_filter.mp he
    have hid : e.id ∉ ls.existingIds := by simpa using he2.2
    have hid2 : e.id ∉ memberIds s := fun hmem => hid (hsub e.id hmem)
    have hkey : g.1 ∉ bucketKeysL s.buckets := hg ⟨e, he2.1, hid2⟩
    unfold stepGroupP
    rw [if_neg hnew, if_neg hkey]
    exact inv2P_append_bucket pick s now ls h1 h2 g.1.1 g.1.2
      (newMembers ls g).length hdisj _ _

theorem foldl_inv2P (pick : List Bucket → Option Bucket) (s : Store)
    (now : Nat) :
    ∀ (groups : List Group) (ls : LoopState), Inv1P pick s now ls →
      Inv2P pick s now ls →
      (∀ x ∈ memberIds s, x ∈ ls.existingIds) →
      (∀ g ∈ groups, (∃ e ∈ g.2.experiments, e.id ∉ memberIds s) →
        g.1 ∉ bucketKeysL s.buckets) →
      (groups.map (·.1)).Nodup →
      (∀ b ∈ ls.entries, bkey b ∉ groups.map (·.1)) →
      (((groups.foldl (stepGroupP pick s now) ls).entries.map (·.model)).Nodup) →
      Inv2P pick s now (groups.foldl (stepGroupP pick s now) ls) := by
  intro groups
  induction groups with
  | nil => intro ls _ h2 _ _ _ _ _; exact h2
  | cons g rest ih =>
      intro ls h1 h2 hsub hg hnd hdisj hND
      rw [List.foldl_cons] at hND ⊢
      have hkeyhead : g.1 ∉ ls.entries.map bkey := by
        intro hmem
        obtain ⟨b, hb, hbk⟩ := List.mem_map.mp hmem
        exact hdisj b hb (by rw [hbk]; simp)
      have hndc : (g.1 :: rest.map (·.1)).Nodup := by
        rw [List.map_cons] at hnd; exact hnd
      have hnd2 := List.nodup_cons.mp hndc
      refine ih (stepGroupP pick s now ls g)
        (stepGroupP_inv1 pick s now ls g h1
          (head_model_fresh pick s now ls g rest hND))
        (stepGroupP_inv2 pick s now ls g h1 h2 hsub (hg g (by simp)) hkeyhead)
        (fun x hx => stepGroupP_ids_mono pick s now ls g x (hsub x hx))
        (fun g2 hg2 => hg g2 (by simp [hg2])) hnd2.2 ?_ hND
      intro b hb
      rcases stepGroupP_entries_cases pick s now ls g b hb with h1b | h1b
      · intro hmem
        exact hdisj b h1b (by simp [hmem])
      · rw [h1b]
        exact hnd2.1

theorem initLoop_inv1P (pick : List Bucket → Option Bucket)
    (hq : IsLatestQuery pick) (s : Store) (now : Nat)
    (hpw : List.Pairwise Rel s.buckets)
    (htd : ∀ m, List.Pairwise RelT (catL s.buckets m))
    (ht : ∀ b ∈ s.buckets, b.extracted_time < now) :
    Inv1P pick s now (initLoop s) := by
  constructor
  · exact ht
  · intro b hb
    simp [initLoop] at hb
  · rw [show (initLoop s).entries = [] from rfl, List.append_nil]
    exact hpw
  · intro m
    rw [show (initLoop s).entries = [] from rfl, List.append_nil]
    exact htd m
  · intro m b hb
    rw [show (initLoop s).entries = [] from rfl, List.append_nil] at hb
    exact bound_of_pairwise_strict hq hpw m (htd m) b hb
  · intro b hb
    simp [initLoop] at hb

theorem initLoop_inv2P (pick : List Bucket → Option Bucket)
    (hq : IsLatestQuery pick) (s : Store) (now : Nat)
    (htd : ∀ m, List.Pairwise RelT (catL s.buckets m))
    (hcons : ∀ m, seedL s.buckets m = sumCountsL s.buckets m) :
    Inv2P pick s now (initLoop s) := by
  constructor
  · intro m
    rw [show (initLoop s).entries = [] from rfl, List.append_nil]
    show seedL s.buckets m = seedLP pick s.buckets m
    exact (seedLP_eq_seedL hq s.buckets m (htd m)).symm
  · intro m
    rw [show (initLoop s).entries = [] from rfl, List.append_nil]
    show seedLP pick s.buckets m = sumCountsL s.buckets m
    rw [seedLP_eq_seedL hq s.buckets m (htd m)]
    exact hcons m
  · simp [initLoop]

/-! ### Effect of one committed cycle on the store -/

theorem syncCycleP_buckets_split (pick : List Bucket → Option Bucket)
    (s : Store) (groups : List Group) (now : Nat) :
    ∃ es2, List.Sublist es2
        ((groups.foldl (stepGroupP pick s now) (initLoop s)).entries) ∧
      (syncCycleP pick s groups now).buckets = s.buckets ++ es2 :=
  foldl_insBucket_split _ s.buckets

theorem cycleP_pw (pick : List Bucket → Option Bucket)
    (hq : IsLatestQuery pick) (s : Store) (groups : List Group) (now : Nat)
    (hpw : List.Pairwise Rel s.buckets)
    (htd : ∀ m, List.Pairwise RelT (catL s.buckets m))
    (ht : ∀ b ∈ s.buckets, b.extracted_time < now)
    (hND : (((groups.foldl (stepGroupP pick s now)
        (initLoop s)).entries.map (·.model)).Nodup)) :
    List.Pairwise Rel (syncCycleP pick s groups now).buckets ∧
    (∀ m, List.Pairwise RelT (catL (syncCycleP pick s groups now).buckets m)) ∧
    (∀ b ∈ (syncCycleP pick s groups now).buckets,
      b ∈ s.buckets ∨ b.extracted_time = now) := by
  have hfin : Inv1P pick s now
      (groups.foldl (stepGroupP pick s now) (initLoop s)) :=
    foldl_inv1P pick s now groups (initLoop s)
      (initLoop_inv1P pick hq s now hpw htd ht) hND
  obtain ⟨es2, hsub, heq⟩ := syncCycleP_buckets_split pick s groups now
  have hsubfull : List.Sublist (s.buckets ++ es2)
      (s.buckets ++ (groups.foldl (stepGroupP pick s now) (initLoop s)).entries) :=
    (List.append_sublist_append_left s.buckets).mpr hsub
  refine ⟨?_, ?_, ?_⟩
  · rw [heq]
    exact hfin.pw.sublist hsubfull
  · intro m
    rw [heq]
    exact (hfin.tdist m).sublist (hsubfull.filter _)
  · intro b hb
    rw [heq] at hb
    rcases List.mem_append.mp hb with h1 | h1
    · exact Or.inl h1
    · exact Or.inr (hfin.etime b (hsub.subset h1))

theorem cycleP_cons (pick : List Bucket → Option Bucket)
    (hq : IsLatestQuery pick) (s : Store) (groups : List Group) (now : Nat)
    (hpw : List.Pairwise Rel s.buckets)
    (htd : ∀ m, List.Pairwise RelT (catL s.buckets m))
    (ht : ∀ b ∈ s.buckets, b.extracted_time < now)
    (hcons : ∀ m, seedL s.buckets m = sumCountsL s.buckets m)
    (hfresh : FreshGroups s groups) (hnd : (groups.map (·.1)).Nodup)
    (hND : (((groups.foldl (stepGroupP pick s now)
        (initLoop s)).entries.map (·.model)).Nodup)) :
    ∀ m, seedL (syncCycleP pick s groups now).buckets m =
      sumCountsL (syncCycleP pick s groups now).buckets m := by
  have hfin1 : Inv1P pick s now
      (groups.foldl (stepGroupP pick s now) (initLoop s)) :=
    foldl_inv1P pick s now groups (initLoop s)
      (initLoop_inv1P pick hq s now hpw htd ht) hND
  have hfin2 : Inv2P pick s now
      (groups.foldl (stepGroupP pick s now) (initLoop s)) := by
    refine foldl_inv2P pick s now groups (initLoop s)
      (initLoop_inv1P pick hq s now hpw htd ht)
      (initLoop_inv2P pick hq s now htd hcons) (fun x hx => hx) hfresh hnd
      ?_ hND
    intro b hb
    simp [initLoop] at hb
  have heq : (syncCycleP pick s groups now).buckets =
      s.buckets ++ (groups.foldl (stepGroupP pick s now) (initLoop s)).entries :=
    foldl_insBucket_all_fresh _ s.buckets hfin1.fresh hfin2.keysnd
  intro m
  rw [heq]
  exact (hfin2.seedeq m).trans (hfin2.sumeq m)

/-! ### Run-level invariants -/

theorem runP_pw (pick : List Bucket → Option Bucket)
    (hq : IsLatestQuery pick) :
    ∀ (cycles : List Cycle) (s : Store),
      List.Pairwise Rel s.buckets →
      (∀ m, List.Pairwise RelT (catL s.buckets m)) →
      (∀ b ∈ s.buckets, ∀ c ∈ cycles, b.extracted_time < c.2) →
      List.Pairwise (· < ·) (cycles.map (·.2)) →
      OneRunP pick s cycles →
      List.Pairwise Rel (runCyclesP pick s cycles).buckets ∧
      (∀ m, List.Pairwise RelT (catL (runCyclesP pick s cycles).buckets m)) := by
  intro cycles
  induction cycles with
  | nil => intro s hpw htd _ _ _; exact ⟨hpw, htd⟩
  | cons c rest ih =>
      intro s hpw htd hHB hchain hone
      have ht : ∀ b ∈ s.buckets, b.extracted_time < c.2 :=
        fun b hb => hHB b hb c (by simp)
      have hcy := cycleP_pw pick hq s (process_experiments (extract c.1)) c.2
        hpw htd ht hone.1
      have hchain2 := List.pairwise_cons.mp (by
        rw [List.map_cons] at hchain; exact hchain)
      refine ih (syncCycleP pick s (process_experiments (extract c.1)) c.2)
        hcy.1 hcy.2.1 ?_ hchain2.2 hone.2
      intro b hb c2 hc2
      rcases hcy.2.2 b hb with h1 | h1
      · exact hHB b h1 c2 (by simp [hc2])
      · rw [h1]
        exact hchain2.1 c2.2 (List.mem_map_of_mem _ hc2)

theorem runP_cons (pick : List Bucket → Option Bucket)
    (hq : IsLatestQuery pick) :
    ∀ (cycles : List Cycle) (s : Store),
      List.Pairwise Rel s.buckets →
      (∀ m, List.Pairwise RelT (catL s.buckets m)) →
      (∀ m, seedL s.buckets m = sumCountsL s.buckets m) →
      (∀ b ∈ s.buckets, ∀ c ∈ cycles, b.extracted_time < c.2) →
      List.Pairwise (· < ·) (cycles.map (·.2)) →
      OneRunP pick s cycles →
      FreshRunP pick s cycles →
      (∀ (grs : List ExpData), ((process_experiments grs).map (·.1)).Nodup) →
      (∀ m, seedL (runCyclesP pick s cycles).buckets m =
        sumCountsL (runCyclesP pick s cycles).buckets m) ∧
      (∀ m, List.Pairwise RelT (catL (runCyclesP pick s cycles).buckets m)) := by
  intro cycles
  induction cycles with
  | nil => intro s _ htd hcons _ _ _ _ _; exact ⟨hcons, htd⟩
  | cons c rest ih =>
      intro s hpw htd hcons hHB hchain hone hfresh hnds
      have ht : ∀ b ∈ s.buckets, b.extracted_time < c.2 :=
        fun b hb => hHB b hb c (by simp)
      have hcy := cycleP_pw pick hq s (process_experiments (extract c.1)) c.2
        hpw htd ht hone.1
      have hcons2 := cycleP_cons pick hq s (process_experiments (extract c.1))
        c.2 hpw htd ht hcons hfresh.1 (hnds (extract c.1)) hone.1
      have hchain2 := List.pairwise_cons.mp (by
        rw [List.map_cons] at hchain; exact hchain)
      refine ih (syncCycleP pick s (process_experiments (extract c.1)) c.2)
        hcy.1 hcy.2.1 hcons2 ?_ hchain2.2 hone.2 hfresh.2 hnds
      intro b hb c2 hc2
      rcases hcy.2.2 b hb with h1 | h1
      · exact hHB b h1 c2 (by simp [hc2])
      · rw [h1]
        exact hchain2.1 c2.2 (List.mem_map_of_mem _ hc2)

/-! ### The grouper produces distinct keys -/

theorem keys_updateGroup (key : DT × List Char) (m : Member) :
    ∀ l : List Group, (updateGroup key m l).map (·.1) = l.map (·.1) := by
  intro l
  induction l with
  | nil => rfl
  | cons kv t ih =>
      obtain ⟨k0, g⟩ := kv
      unfold updateGroup
      by_cases hk : k0 = key
      · rw [if_pos hk]
        rw [List.map_cons, List.map_cons]
      · rw [if_neg hk]
        rw [List.map_cons, List.map_cons, ih]

theorem findGroup_none (key : DT × List Char) :
    ∀ l : List Group, findGroup l key = none ↔ key ∉ l.map (·.1) := by
  intro l
  induction l with
  | nil => simp [findGroup]
  | cons kv t ih =>
      obtain ⟨k0, g⟩ := kv
      unfold findGroup
      by_cases hk : k0 = key
      · rw [if_pos hk]
        simp [hk]
      · rw [if_neg hk]
        simp only [List.map_cons, List.mem_cons]
        rw [ih]
        constructor
        · intro h hmem
          rcases hmem with h1 | h1
          · exact hk h1.symm
          · exact h h1
        · intro h hmem
          exact h (Or.inr hmem)

theorem procStep_keys_nodup (acc : List Group) (e : ExpData)
    (h : (acc.map (·.1)).Nodup) : ((procStep acc e).map (·.1)).Nodup := by
  unfold procStep
  rw [keys_updateGroup]
  by_cases hf : (findGroup acc (truncDT e.credated, e.model)).isSome
  · rw [if_pos hf]; exact h
  · rw [if_neg hf]
    have hnone : findGroup acc (truncDT e.credated, e.model) = none := by
      rcases hopt : findGroup acc (truncDT e.credated, e.model) with _ | v
      · rfl
      · rw [hopt] at hf; simp at hf
    have hout := (findGroup_none _ acc).mp hnone
    rw [List.map_append]
    simp only [List.nodup_append, List.map_cons, List.map_nil,
      List.nodup_singleton, true_and]
    refine ⟨h, ?_⟩
    intro a ha hb
    have : a = (truncDT e.credated, e.model) := by simpa using hb
    rw [this] at ha
    exact hout ha

theorem process_experiments_keys_nodup (exps : List ExpData) :
    ((process_experiments exps).map (·.1)).Nodup := by
  unfold process_experiments
  have : ∀ (l : List ExpData) (acc : List Group), (acc.map (·.1)).Nodup →
      ((l.foldl procStep acc).map (·.1)).Nodup := by
    intro l
    induction l with
    | nil => intro acc h; exact h
    | cons e t ih => intro acc h; exact ih _ (procStep_keys_nodup acc e h)
  exact this exps [] (by simp)

/-! ### Replay invariance support -/

theorem foldl_skip_all_known (pick : List Bucket → Option Bucket) (s : Store)
    (now : Nat) :
    ∀ (groups : List Group) (ls : LoopState),
      (∀ g ∈ groups, ∀ e ∈ g.2.experiments, e.id ∈ ls.existingIds) →
      groups.foldl (stepGroupP pick s now) ls = ls := by
  intro groups
  induction groups with
  | nil => intro ls _; rfl
  | cons g rest ih =>
      intro ls h
      have hnew : newMembers ls g = [] := by
        apply List.filter_eq_nil_iff.mpr
        intro e he
        simpa using h g (by simp) e he
      rw [List.foldl_cons, stepGroupP_skip pick s now hnew]
      exact ih ls (fun g2 hg2 => h g2 (by simp [hg2]))

theorem applyWriteSet_nil (s : Store) : applyWriteSet s ([], []) = s := rfl

theorem syncCycleP_covers (pick : List Bucket → Option Bucket) (s : Store)
    (groups : List Group) (now : Nat) :
    ∀ g ∈ groups, ∀ e ∈ g.2.experiments,
      e.id ∈ memberIds (syncCycleP pick s groups now) := by
  intro g hg e he
  have hcov : e.id ∈
      (groups.foldl (stepGroupP pick s now) (initLoop s)).existingIds :=
    foldl_covers pick s now groups (initLoop s) g hg e he
  have hfrom := foldl_ids_from pick s now groups (initLoop s)
    (fun x hx => Or.inl hx) e.id hcov
  show e.id ∈ ((groups.foldl (stepGroupP pick s now) (initLoop s)).inserted.foldl
    insMember s.experiments).map (·.id)
  rcases hfrom with h1 | h1
  · exact mem_ids_foldl_insMember_of_acc _ s.experiments e.id h1
  · obtain ⟨r, hr, hrid⟩ := List.mem_map.mp h1
    rw [← hrid]
    exact mem_ids_foldl_insMember_of_mem _ s.experiments r hr

/-! ### Timestamp provenance of written rows -/

theorem syncCycleP_bucket_source (pick : List Bucket → Option Bucket)
    (s : Store) (groups : List Group) (now : Nat) :
    ∀ b ∈ (syncCycleP pick s groups now).buckets,
      b ∈ s.buckets ∨ b.extracted_time = now := by
  intro b hb
  obtain ⟨es2, hsub, heq⟩ := syncCycleP_buckets_split pick s groups now
  rw [heq] at hb
  rcases List.mem_append.mp hb with h1 | h1
  · exact Or.inl h1
  · refine Or.inr ?_
    refine foldl_etime pick s now groups (initLoop s) ?_ b (hsub.subset h1)
    intro b2 hb2
    simp [initLoop] at hb2

/-! ### The scheduler loop trace -/

theorem loopTrace_stop_after_sleep :
    ∀ (os : List Outcome) (n i : Nat),
      (loopTrace os n).get? i = some Ev.stop →
      i = 0 ∨ (loopTrace os n).get? (i - 1) = some Ev.sleep := by
  intro os
  induction os with
  | nil =>
      intro n i h
      cases n with
      | zero =>
          cases i with
          | zero => exact Or.inl rfl
          | succ k => simp [loopTrace] at h
      | succ n2 => simp [loopTrace] at h
  | cons o rest ih =>
      intro n i h
      cases n with
      | zero =>
          cases i with
          | zero => exact Or.inl rfl
          | succ k => simp [loopTrace] at h
      | succ n2 =>
          rcases i with _ | _ | _ | k
          · exact Or.inl rfl
          · cases o <;> simp [loopTrace, cycleEv] at h
          · simp [loopTrace] at h
          · have h2 : (loopTrace rest n2).get? k = some Ev.stop := by
              simpa [loopTrace] using h
            refine Or.inr ?_
            rcases ih n2 k h2 with hk | hk
            · subst hk
              show (Ev.cycleStart :: cycleEv o :: Ev.sleep ::
                loopTrace rest n2).get? 2 = some Ev.sleep
              rfl
            · cases k with
              | zero =>
                  show (Ev.cycleStart :: cycleEv o :: Ev.sleep ::
                    loopTrace rest n2).get? 2 = some Ev.sleep
                  rfl
              | succ k2 =>
                  show (Ev.cycleStart :: cycleEv o :: Ev.sleep ::
                    loopTrace rest n2).get? (k2 + 3) = some Ev.sleep
                  simpa using hk

/-! ### Claim theorems -/

/-- C1 (counterexample): with a failing commit on a non-empty extraction, the
persist step fails (`persisted = false`) and the store is fully rolled back,
yet `execute_task` reports a normal return (`raised = false`): the error is
not propagated to the caller of the cycle, contradicting the claim. -/
theorem c1_counterexample :
    (executeTask Store.empty rowsA 5 false true true).persisted = false ∧
    (executeTask Store.empty rowsA 5 false true true).raised = false ∧
    (executeTask Store.empty rowsA 5 false true true).store = Store.empty := by
  decide

/-- C1 (amended): the write set of a cycle is applied atomically — a failing
commit leaves the store exactly as before and the error propagates out of
`_update_timescaledb`, while a successful commit applies the entire
reconciled write set; under every flag combination the store after
`execute_task` is either the untouched pre-cycle store or the fully committed
one, never anything in between.  However `execute_task` catches the persist
error and does not re-raise it. -/
theorem c1_atomic_persist (s : Store) (groups : List Group) (now : Nat)
    (rows : List SourceRecord) (cOk rI rO : Bool) :
    (update_timescaledb s groups now false rI).1 = Except.error () ∧
    (update_timescaledb s groups now true rI).1 =
      Except.ok (applyWriteSet s (reconcile s groups now)) ∧
    ((executeTask s rows now cOk rI rO).store = s ∨
     (executeTask s rows now cOk rI rO).store =
       syncCycle s (process_experiments (extract rows)) now) := by
  refine ⟨rfl, rfl, ?_⟩
  unfold executeTask
  by_cases hemp : (extract rows).isEmpty = true
  · rw [if_pos hemp]
    exact Or.inl rfl
  · rw [if_neg hemp]
    cases cOk
    · exact Or.inl rfl
    · exact Or.inr rfl

/-- C2: replay invariance — after one committed cycle, rerunning the same
extraction yields an empty write set (no new member rows, no new buckets) and
leaves the store unchanged, whatever the starting store and timestamps. -/
theorem c2_replay_noop (s : Store) (rows : List SourceRecord)
    (now1 now2 : Nat) :
    reconcile (syncCycle s (process_experiments (extract rows)) now1)
      (process_experiments (extract rows)) now2 = ([], []) ∧
    syncCycle (syncCycle s (process_experiments (extract rows)) now1)
      (process_experiments (extract rows)) now2 =
      syncCycle s (process_experiments (extract rows)) now1 := by
  have hcov := syncCycleP_covers pickLatest s
    (process_experiments (extract rows)) now1
  have hskip := foldl_skip_all_known pickLatest
    (syncCycle s (process_experiments (extract rows)) now1) now2
    (process_experiments (extract rows))
    (initLoop (syncCycle s (process_experiments (extract rows)) now1))
    (fun g hg e he => hcov g hg e he)
  have hrec : reconcile (syncCycle s (process_experiments (extract rows)) now1)
      (process_experiments (extract rows)) now2 = ([], []) := by
    unfold reconcile reconcileP
    rw [hskip]
    rfl
  refine ⟨hrec, ?_⟩
  show applyWriteSet _ (reconcile _ _ now2) = _
  rw [hrec]
  exact applyWriteSet_nil _

/-- C3 (counterexample): in a cycle whose persist step failed, a
materialized-view refresh is still attempted (the cycle-level call at line
99 of `execute_task`), contradicting the claim that no refresh happens in a
cycle whose persist step failed. -/
theorem c3_counterexample :
    (executeTask Store.empty rowsA 5 false true true).persisted = false ∧
    (executeTask Store.empty rowsA 5 false true true).refreshes = 1 := by
  decide

/-- C3 (amended): the refresh issued inside `_update_timescaledb` happens
only after a successful commit (zero such attempts when the commit fails,
exactly one on success), and no refresh failure alters the committed store;
however `execute_task` additionally issues a cycle-level refresh that is
attempted even when the persist step failed. -/
theorem c3_refresh_after_commit (s : Store) (groups : List Group) (now : Nat)
    (rows : List SourceRecord) (rI rI2 rO rO2 : Bool) :
    (update_timescaledb s groups now false rI).2 = 0 ∧
    (update_timescaledb s groups now true rI).2 = 1 ∧
    (executeTask s rows now true rI rO).store =
      (executeTask s rows now true rI2 rO2).store ∧
    (executeTask s rows now false rI rO).refreshes =
      (if (extract rows).isEmpty then 0 else 1) := by
  refine ⟨rfl, rfl, ?_, ?_⟩
  · unfold executeTask
    by_cases hemp : (extract rows).isEmpty = true
    · rw [if_pos hemp, if_pos hemp]
    · rw [if_neg hemp, if_neg hemp]
      rfl
  · unfold executeTask
    by_cases hemp : (extract rows).isEmpty = true
    · rw [if_pos hemp, if_pos hemp]
    · rw [if_neg hemp, if_neg hemp]
      rfl

/-- C4 (counterexample): in a run whose second cycle delivers a new member
under an already-persisted bucket key, the in-memory cumulative advances
without a persisted increment: the latest bucket of model M carries
`total_count = 3` while the increments of all persisted buckets of M sum
to 2.  The extraction times 10 and 20 are distinct, so the latest-row read
is unambiguous — both tie resolutions of the seed query produce this store
and both return the total-3 row. -/
theorem c4_counterexample :
    runCyclesP pickFirstMax Store.empty cxCycles = cxStore ∧
    (pickLatest (catBuckets cxStore mName)).map (·.total_count) = some 3 ∧
    (pickFirstMax (catBuckets cxStore mName)).map (·.total_count) = some 3 ∧
    sumCounts cxStore mName = 2 ∧
    cxStore.buckets.map (·.extracted_time) = [10, 20] := by
  decide

/-- C4 (amended): conservation holds for every legal resolution of the
latest-row query, for every run with strictly increasing cycle timestamps in
which each cycle stages at most one bucket per category and each group still
carrying unknown member ids targets a not-yet-persisted
`(bucketDate, category)` key: whatever legal resolution a later reader uses,
the `total_count` of the latest bucket of each category equals the sum of
the `count` values of all persisted buckets of that category. -/
theorem c4_conservation (pick : List Bucket → Option Bucket)
    (hq : IsLatestQuery pick) (cycles : List Cycle)
    (hchain : List.Pairwise (· < ·) (cycles.map (·.2)))
    (hone : OneRunP pick Store.empty cycles)
    (hfresh : FreshRunP pick Store.empty cycles) :
    ∀ (pick2 : List Bucket → Option Bucket), IsLatestQuery pick2 →
      ∀ (m : List Char) (b : Bucket),
        pick2 (catBuckets (runCyclesP pick Store.empty cycles) m) = some b →
        b.total_count = sumCounts (runCyclesP pick Store.empty cycles) m := by
  have hc := runP_cons pick hq cycles Store.empty
    (by show List.Pairwise Rel ([] : List Bucket); exact List.Pairwise.nil)
    (by intro m; show List.Pairwise RelT (catL [] m); exact List.Pairwise.nil)
    (by intro m; rfl)
    (by intro b hb; simp [Store.empty] at hb)
    hchain hone hfresh
    (fun grs => process_experiments_keys_nodup grs)
  intro pick2 hq2 m b hb
  have hb2 : pick2 (catL (runCyclesP pick Store.empty cycles).buckets m) =
      some b := hb
  have h2 : seedLP pick2 (runCyclesP pick Store.empty cycles).buckets m =
      b.total_count := by
    unfold seedLP
    rw [hb2]
  have h3 := seedLP_eq_seedL hq2
    (runCyclesP pick Store.empty cycles).buckets m (hc.2 m)
  exact h2.symm.trans (h3.trans (hc.1 m))

/-- C4 (witness): the scenario A/B run satisfies every hypothesis, and its
final EC-Earth bucket carries the conserved total 3 under the tie-to-last
reader. -/
theorem c4_witness :
    (⟨⟨230102, 0⟩, ecName, 1, 3, 20⟩ : Bucket).total_count =
      sumCounts (runCyclesP pickLatest Store.empty
        [(rowsA, 10), (rowsB, 20)]) ecName := by
  have h := c4_conservation pickLatest isLatestQuery_pickLatest
    [(rowsA, 10), (rowsB, 20)] (by decide)
    ⟨by decide, by decide, trivial⟩ ⟨by decide, by decide, trivial⟩
  exact h pickLatest isLatestQuery_pickLatest ecName _ (by decide)

/-- C5 (counterexample): cleaning is not idempotent on the raw name built of
a quote, the letter a, a slash and a quote: the first application removes the
quotes and exposes a trailing slash, the second strips it. -/
theorem c5_counterexample :
    clean_model_name (clean_model_name badName) ≠ clean_model_name badName := by
  decide

/-- C5 (amended): normalization is idempotent on every string whose
slash-stripped form does not both start and end with a single quote (in
particular every string containing no quote); when a quote layer is removed
a second application can strip further. -/
theorem c5_clean_idempotent (s : List Char)
    (h : ¬((rstripSlash s).head? = some quoteChar ∧
           (rstripSlash s).getLast? = some quoteChar)) :
    clean_model_name (clean_model_name s) = clean_model_name s := by
  by_cases hs : s = []
  · rw [hs]
    rfl
  · rw [clean_model_name_of_unquoted s hs h]
    by_cases ht : rstripSlash s = []
    · rw [ht]
      rfl
    · rw [clean_model_name, if_neg ht, rstripSlash_idem, if_neg h]

/-- C5 (witness): the unquoted name consisting of the letter a and a slash
satisfies the hypothesis, and cleaning it is idempotent. -/
theorem c5_witness :
    ¬((rstripSlash ['a', '/']).head? = some quoteChar ∧
      (rstripSlash ['a', '/']).getLast? = some quoteChar) ∧
    clean_model_name (clean_model_name ['a', '/']) =
      clean_model_name ['a', '/'] :=
  ⟨by decide, c5_clean_idempotent ['a', '/'] (by decide)⟩

/-- C6 (counterexample): the raw value NA-slash is not in the denylist, so it
survives extraction, and normalization maps it to the denylisted value NA,
which then appears as the category of a persisted member row and a persisted
bucket. -/
theorem c6_counterexample :
    "NA".toList ∈ invalid_model_values ∧
    (extract naRows).map (·.model) = ["NA".toList] ∧
    (runCycles Store.empty [(naRows, 5)]).buckets.map (·.model) =
      ["NA".toList] ∧
    (runCycles Store.empty [(naRows, 5)]).experiments.map (·.model) =
      ["NA".toList] := by
  decide

/-- C6 (amended): every extracted tuple originates from a source row whose
raw category is outside the denylist (exact, case-sensitive match on the raw
value) — but because the check precedes normalization, a denylisted value can
still appear as a persisted category when a different raw value normalizes to
it. -/
theorem c6_denylist_excluded (rows : List SourceRecord) :
    ∀ e ∈ extract rows, ∃ r ∈ rows,
      r.model ∉ invalid_model_values ∧ e = mkExpData r := by
  intro e he
  unfold extract at he
  obtain ⟨r, hr, hre⟩ := List.mem_map.mp he
  have hf := List.mem_filter.mp hr
  exact ⟨r, hf.1, by simpa using hf.2, hre.symm⟩

/-- C6 (witness): the first extracted tuple of scenario A originates from the
non-denylisted source row e1. -/
theorem c6_witness :
    ∃ r ∈ rowsA, r.model ∉ invalid_model_values ∧
      (⟨"e1", "n1", ecName, dJan1⟩ : ExpData) = mkExpData r :=
  c6_denylist_excluded rowsA ⟨"e1", "n1", ecName, dJan1⟩ (by decide)

/-- C7: scenarios A and B — from an empty store, the cycle over e1 and e2
(whose raw categories normalize to EC-Earth) produces exactly one bucket
(2023-01-01, EC-Earth) with incremental 2 and cumulative 2; the next cycle
after adding e3 appends exactly one bucket (2023-01-02, EC-Earth) with
incremental 1 and cumulative 3 while the original bucket is unchanged in
every field. -/
theorem c7_scenario :
    clean_model_name ecRawSlash = ecName ∧
    clean_model_name ecRawQuoted = ecName ∧
    storeA.buckets = [⟨⟨230101, 0⟩, ecName, 2, 2, 10⟩] ∧
    storeB.buckets = [⟨⟨230101, 0⟩, ecName, 2, 2, 10⟩,
      ⟨⟨230102, 0⟩, ecName, 1, 3, 20⟩] := by
  decide

/-- C8 (counterexample): the seed query orders only by `extracted_time`, so
when a cycle writes two same-model buckets they tie and either may be
returned.  `pickFirstMax` is a legal resolution of the query (first
conjunct), yet under it the tie run persists an M-bucket with total 3 at
extraction time 10 and a later M-bucket with total 2 at extraction time 20:
the cumulative total of a category decreases across extraction times,
contradicting the claim. -/
theorem c8_counterexample :
    IsLatestQuery pickFirstMax ∧
    (⟨⟨230102, 0⟩, mName, 2, 3, 10⟩ : Bucket) ∈
      (runCyclesP pickFirstMax Store.empty tieCycles).buckets ∧
    (⟨⟨230103, 0⟩, mName, 1, 2, 20⟩ : Bucket) ∈
      (runCyclesP pickFirstMax Store.empty tieCycles).buckets ∧
    ¬((⟨⟨230102, 0⟩, mName, 2, 3, 10⟩ : Bucket).total_count ≤
      (⟨⟨230103, 0⟩, mName, 1, 2, 20⟩ : Bucket).total_count) :=
  ⟨isLatestQuery_pickFirstMax, by decide, by decide, by decide⟩

/-- C8 (amended): monotonicity holds for every legal resolution of the
latest-row query — starting from the empty store, for any run with strictly
increasing cycle timestamps in which each cycle stages at most one bucket
per category, any two persisted buckets of the same category with strictly
increasing extraction times have non-decreasing cumulative totals. -/
theorem c8_monotonic (pick : List Bucket → Option Bucket)
    (hq : IsLatestQuery pick) (cycles : List Cycle)
    (hchain : List.Pairwise (· < ·) (cycles.map (·.2)))
    (hone : OneRunP pick Store.empty cycles) :
    ∀ a ∈ (runCyclesP pick Store.empty cycles).buckets,
      ∀ b ∈ (runCyclesP pick Store.empty cycles).buckets,
        a.model = b.model → a.extracted_time < b.extracted_time →
        a.total_count ≤ b.total_count := by
  have hpw : List.Pairwise Rel (runCyclesP pick Store.empty cycles).buckets := by
    refine (runP_pw pick hq cycles Store.empty ?_ ?_ ?_ hchain hone).1
    · show List.Pairwise Rel ([] : List Bucket)
      exact List.Pairwise.nil
    · intro m
      show List.Pairwise RelT (catL [] m)
      exact List.Pairwise.nil
    · intro b hb; simp [Store.empty] at hb
  intro a ha b hb hm ht
  exact pairwise_two_mem hpw ha hb hm ht

/-- C8 (witness): the scenario A/B run under the tie-to-last resolution
satisfies every hypothesis, and its two EC-Earth buckets satisfy the
monotonicity conclusion. -/
theorem c8_witness :
    (⟨⟨230101, 0⟩, ecName, 2, 2, 10⟩ : Bucket).total_count ≤
      (⟨⟨230102, 0⟩, ecName, 1, 3, 20⟩ : Bucket).total_count :=
  c8_monotonic pickLatest isLatestQuery_pickLatest [(rowsA, 10), (rowsB, 20)]
    (by decide) ⟨by decide, by decide, trivial⟩
    ⟨⟨230101, 0⟩, ecName, 2, 2, 10⟩ (by decide)
    ⟨⟨230102, 0⟩, ecName, 1, 3, 20⟩ (by decide) rfl (by decide)

/-- C9: the worker loop runs each cycle to completion and then sleeps,
whatever the outcome of the cycle — a caught failure produces the same
continuation as a success — and the loop can stop only at the flag check that
follows a sleep (or before the first cycle), never between the start of a
cycle and its completing sleep; hence an in-flight cycle always finishes
before shutdown. -/
theorem c9_scheduler (o : Outcome) (rest : List Outcome) (n : Nat) :
    loopTrace (o :: rest) (n + 1) =
      Ev.cycleStart :: cycleEv o :: Ev.sleep :: loopTrace rest n ∧
    (loopTrace (Outcome.failed :: rest) (n + 1)).drop 2 =
      (loopTrace (Outcome.ok :: rest) (n + 1)).drop 2 ∧
    (∀ (os : List Outcome) (k i : Nat),
      (loopTrace os k).get? i = some Ev.stop →
      i = 0 ∨ (loopTrace os k).get? (i - 1) = some Ev.sleep) :=
  ⟨rfl, rfl, loopTrace_stop_after_sleep⟩

/-- C9 (witness): in a two-outcome window stopped after one cycle, the stop
event at position 3 is immediately preceded by the sleep event. -/
theorem c9_witness :
    3 = 0 ∨ (loopTrace [Outcome.failed, Outcome.ok] 1).get? 2 =
      some Ev.sleep :=
  (c9_scheduler Outcome.failed [] 0).2.2 [Outcome.failed, Outcome.ok] 1 3 rfl

/-- C10: every bucket written by any number of cycles of one worker instance
carries the extraction timestamp fixed at construction; the shared timestamp
recorded by `set_timestamp` changes neither the fixed timestamp nor any
store outcome, so `extractedAt` does not advance across cycles within one
worker lifetime. -/
theorem c10_fixed_timestamp (now t : Nat) (rowss : List (List SourceRecord)) :
    (∀ b ∈ (runWorkerCycles (mkWorker now) rowss).store.buckets,
      b.extracted_time = now) ∧
    runWorkerCycles (set_timestamp (mkWorker now) t) rowss =
      set_timestamp (runWorkerCycles (mkWorker now) rowss) t ∧
    (runWorkerCycles (mkWorker now) rowss).current_time = now := by
  have gen : ∀ (rs : List (List SourceRecord)) (w : WorkerSt),
      w.current_time = now →
      (∀ b ∈ w.store.buckets, b.extracted_time = now) →
      (runWorkerCycles w rs).current_time = now ∧
      ∀ b ∈ (runWorkerCycles w rs).store.buckets, b.extracted_time = now := by
    intro rs
    induction rs with
    | nil => intro w hw hb; exact ⟨hw, hb⟩
    | cons rows rest ih =>
        intro w hw hb
        refine ih (runWorkerCycle w rows) hw ?_
        intro b hbmem
        rcases syncCycleP_bucket_source pickLatest w.store
            (process_experiments (extract rows)) w.current_time b hbmem with
          h1 | h1
        · exact hb b h1
        · rw [h1, hw]
  have comm : ∀ (rs : List (List SourceRecord)) (w : WorkerSt),
      runWorkerCycles (set_timestamp w t) rs =
        set_timestamp (runWorkerCycles w rs) t := by
    intro rs
    induction rs with
    | nil => intro w; rfl
    | cons rows rest ih =>
        intro w
        show runWorkerCycles (runWorkerCycle (set_timestamp w t) rows) rest = _
        have hcomm1 : runWorkerCycle (set_timestamp w t) rows =
            set_timestamp (runWorkerCycle w rows) t := rfl
        rw [hcomm1]
        exact ih (runWorkerCycle w rows)
  obtain ⟨h1, h2⟩ := gen rowss (mkWorker now) rfl (by intro b hb; simp [mkWorker, Store.empty] at hb)
  exact ⟨h2, comm rowss (mkWorker now), h1⟩

end Autosubmit
